import Mathlib

/-!
Verification development for the veddy-backend retrieval/streaming engine.

Shallow embedding of the Python sources:
  * services/comparison_service.py   (comparison detection pipeline)
  * services/token_chunk_service.py  (token chunker)
  * services/reranker_service.py     (reranker adapter)
  * services/langchain_rag_service.py (URL resolution, mode selection,
    response normalization)
  * routers/chat_router.py           (web streaming delivery)

Strings are modelled as `List Char` internally (`String` at the interfaces).
External collaborators (tokenizer, embedding model, cross-encoder, JSON
parsing, database lookups, the NFC normalizer) are parameters of the
embedded functions.  Python regular expressions are embedded as executable
matchers specialised to the concrete patterns appearing in the source;
where the source pattern admits backtracking, the matcher implements the
backtracking order of CPython's `re` engine for that pattern.
-/

/-! ### Python string primitives -/

/-- Python whitespace test (`\s`, `str.strip`): the six ASCII whitespace
characters.  The sources only ever meet ASCII and Hangul text, for which
this agrees with Python. -/
def pyIsSpace (c : Char) : Bool :=
  c = ' ' || c = '\t' || c = '\n' || c = '\r' || c = '\x0b' || c = '\x0c'

/-- Python `\w` (word character) for the alphabets appearing in this code
base: ASCII alphanumerics, underscore, and precomposed Hangul syllables. -/
def pyIsWordChar (c : Char) : Bool :=
  c.isAlphanum || c = '_' || (0xAC00 ≤ c.toNat && c.toNat ≤ 0xD7A3)

def isUpperAZ (c : Char) : Bool := 'A' ≤ c && c ≤ 'Z'

def isUpperDigit (c : Char) : Bool := isUpperAZ c || c.isDigit

/-- `str.lstrip()` on chars. -/
def pyLStrip (l : List Char) : List Char := l.dropWhile pyIsSpace

/-- `str.rstrip()` on chars. -/
def pyRStrip (l : List Char) : List Char :=
  ((l.reverse).dropWhile pyIsSpace).reverse

/-- `str.strip()` on chars. -/
def pyStrip (l : List Char) : List Char := pyRStrip (pyLStrip l)

/-- `str.strip()` on strings. -/
def pyStripStr (s : String) : String := String.mk (pyStrip s.data)

/-- Python `needle in hay` substring test. -/
def containsSub (hay needle : List Char) : Bool :=
  (List.range (hay.length + 1)).any (fun i => needle.isPrefixOf (hay.drop i))

/-- `str.lower()` (ASCII; identity on Hangul, as in Python). -/
def pyLower (l : List Char) : List Char := l.map Char.toLower

/-! ### services/comparison_service.py — keyword lists -/

def COMPARISON_KEYWORDS : List String :=
  ["비교", "차이", "다른점", "공통점", "차별점",
   "vs", "VS", "V.S", "와", "그리고",
   "비교하", "비교해", "차이를", "다르", "같은"]

def PRONOUN_KEYWORDS : List String :=
  ["두개", "둘", "양쪽", "이 두", "저 두",
   "둘 다", "양쪽 모두", "이것과 저것",
   "첫번째와 두번째", "그리고"]

/-- `_check_comparison_intent`: some keyword occurs in `query.lower()`.
(The upper-case keywords can never match the lowered query, as in the
source.) -/
def check_comparison_intent (query : List Char) : Bool :=
  COMPARISON_KEYWORDS.any (fun w => containsSub (pyLower query) w.data)

/-! ### The `A vs B` pattern
`([^\s,\.]+?)\s*(?:vs|VS|V\.S|versus)\s*([^\s,\.]+)` with `re.IGNORECASE`.

The character class `[^\s,\.]` excludes all whitespace, so the `\s*` gaps
around the alternation are forced to consume a maximal whitespace run
(every alternative starts with a non-space character), and the trailing
greedy group is the maximal run of class characters.  The only genuine
backtracking is the lazy first group, tried shortest-first. -/

def notSCD (c : Char) : Bool := !pyIsSpace c && c ≠ ',' && c ≠ '.'

/-- Case-insensitive literal match; returns the remainder on success. -/
def ciDrop : List Char → List Char → Option (List Char)
  | [], s => some s
  | _ :: _, [] => none
  | p :: ps, c :: cs => if p.toLower = c.toLower then ciDrop ps cs else none

/-- The alternation `(?:vs|VS|V\.S|versus)`, alternatives in source order. -/
def vsAlt (s : List Char) : Option (List Char) :=
  (ciDrop "vs".data s).orElse fun _ =>
  (ciDrop "VS".data s).orElse fun _ =>
  (ciDrop "V.S".data s).orElse fun _ =>
  ciDrop "versus".data s

/-- Try the vs-pattern with the first group starting at the head of `s`;
lazy group: lengths tried shortest-first. -/
def vsTryAt (s : List Char) : Option (List Char × List Char) :=
  let run := s.takeWhile notSCD
  (List.range run.length).findSome? fun k =>
    let g1 := run.take (k + 1)
    let rest2 := (s.drop (k + 1)).dropWhile pyIsSpace
    match vsAlt rest2 with
    | some rest3 =>
      let g2 := (rest3.dropWhile pyIsSpace).takeWhile notSCD
      if g2.isEmpty then none else some (g1, g2)
    | none => none

/-- `re.search` for the vs-pattern: leftmost start position wins. -/
def vsSearch (s : List Char) : Option (List Char × List Char) :=
  (List.range s.length).findSome? fun i => vsTryAt (s.drop i)

/-! ### The Korean `A와 B` pattern
`([A-Z][A-Z0-9\s]*)\s*(?:과|와|그리고)\s*([A-Z][A-Z0-9\s]*)`.

The first group's class contains all of `\s` while the connective starts
with a Hangul character outside the class, so the greedy first group is
forced to the maximal class run and both `\s*` gaps are determined. -/

def inAndClass (c : Char) : Bool := isUpperAZ c || c.isDigit || pyIsSpace c

/-- The connective `(?:과|와|그리고)`, alternatives in source order. -/
def korAlt : List Char → Option (List Char)
  | '과' :: r => some r
  | '와' :: r => some r
  | '그' :: '리' :: '고' :: r => some r
  | _ => none

def andTryAt (s : List Char) : Option (List Char × List Char) :=
  match s with
  | [] => none
  | c :: rest =>
    if isUpperAZ c then
      let run := rest.takeWhile inAndClass
      match korAlt (rest.drop run.length) with
      | some after2 =>
        match after2.dropWhile pyIsSpace with
        | d :: rest2 =>
          if isUpperAZ d then some (c :: run, d :: rest2.takeWhile inAndClass)
          else none
        | [] => none
      | none => none
    else none

def andSearch (s : List Char) : Option (List Char × List Char) :=
  (List.range s.length).findSome? fun i => andTryAt (s.drop i)

/-! ### `ACRONYM_PATTERN` = `([A-Z][A-Z0-9]*(?:\s+[A-Z][A-Z0-9]*)?)`
with `re.findall`: non-overlapping leftmost matches, continuing after each
match.  The optional second word is taken greedily; since `\s+` is forced
maximal (its continuation starts with a non-space character), the matcher
is deterministic. -/

/-- One findall step at the head of `s`; on success returns the match,
which always starts with the head character.  The recursion is driven by
`pyFindallAcrF` below with fuel = string length (each step consumes at
least one character, so the fuel never runs out for the wrapper). -/
def acrMatchAt (s : List Char) : Option (List Char) :=
  match s with
  | [] => none
  | c :: rest =>
    if isUpperAZ c then
      let r1 := rest.takeWhile isUpperDigit
      let after1 := rest.drop r1.length
      let sp := after1.takeWhile pyIsSpace
      if sp.isEmpty then some (c :: r1)
      else
        match after1.drop sp.length with
        | d :: rest2 =>
          if isUpperAZ d then
            some (c :: r1 ++ sp ++ d :: rest2.takeWhile isUpperDigit)
          else some (c :: r1)
        | [] => some (c :: r1)
    else none

def pyFindallAcrF : Nat → List Char → List (List Char)
  | 0, _ => []
  | _, [] => []
  | fuel + 1, s@(_ :: rest) =>
    match acrMatchAt s with
    | some m => m :: pyFindallAcrF fuel (s.drop m.length)
    | none => pyFindallAcrF fuel rest

/-- `re.findall(ACRONYM_PATTERN, s)`. -/
def pyFindallAcr (s : List Char) : List (List Char) :=
  pyFindallAcrF (s.length + 1) s

/-! ### `re.sub(r'[^\w\s]', '', t)` and `t.replace(' ', '')` -/

def subNonWordSpace (l : List Char) : List Char :=
  l.filter fun c => pyIsWordChar c || pyIsSpace c

def replSpace (l : List Char) : List Char := l.filter (· ≠ ' ')

/-! ### `_extract_topics_from_context` -/

/-- The inner accumulation loop shared by the conversation-context block
and the history block: append a found token unless its normalized form
(punctuation stripped) equals some already-kept topic with spaces removed;
`break` once an append reaches 3 kept topics. -/
def addFound : List (List Char) → List (List Char) → List (List Char)
  | topics, [] => topics
  | topics, t :: ts =>
    let n := pyStrip (subNonWordSpace t)
    if n ≠ [] ∧ n ∉ topics.map replSpace then
      let topics2 := topics ++ [t]
      if 3 ≤ topics2.length then topics2 else addFound topics2 ts
    else addFound topics ts

/-- `_extract_topics_from_context(query, history_text, conversation_context)`.
Conversation messages are modelled by their `content` strings.  The
`query` argument is unused, as in the source. -/
def extract_topics_from_context (_query hist : List Char)
    (ctx : Option (List String)) : List (List Char) :=
  let topics0 : List (List Char) :=
    match ctx with
    | some msgs =>
      if msgs.isEmpty then []
      else ((msgs.drop (msgs.length - 10)).reverse).foldl
        (fun acc m => addFound acc (pyFindallAcr m.data)) []
    | none => []
  if topics0.length < 2 ∧ hist ≠ [] then addFound topics0 (pyFindallAcr hist)
  else topics0

/-! ### `extract_topics_from_history`
Pattern `\b[A-Z]{2,}(?:\s+[A-Z]{2,})?\b` via `re.findall`, then a reverse
scan keeping the most recent ≤ 3 distinct tokens, restored to
chronological order. -/

/-- Word-boundary test against the previous character (none at string
start). -/
def bndOk : Option Char → Bool
  | none => true
  | some p => !pyIsWordChar p

/-- Boundary at the position in front of `l`, whose previous character is
a word character (uppercase letter). -/
def bndEndOk (l : List Char) : Bool :=
  match l.head? with
  | none => true
  | some d => !pyIsWordChar d

/-- One match attempt for `\b[A-Z]{2,}(?:\s+[A-Z]{2,})?\b` at the head of
`s`, given the previous character.  Within a maximal uppercase run, only
the full run can satisfy the trailing `\b`, so `{2,}` backtracking always
fails and the matcher is deterministic: try the greedy optional extension
first, fall back to the bare first word, else fail. -/
def bMatchAt (prev : Option Char) (s : List Char) : Option (List Char) :=
  match s with
  | [] => none
  | c :: rest =>
    if bndOk prev ∧ isUpperAZ c then
      let r1 := c :: rest.takeWhile isUpperAZ
      if 2 ≤ r1.length then
        let after1 := s.drop r1.length
        let sp := after1.takeWhile pyIsSpace
        let ext : Option (List Char) :=
          if sp.isEmpty then none
          else
            match after1.drop sp.length with
            | d :: rest2 =>
              if isUpperAZ d then
                let r2 := d :: rest2.takeWhile isUpperAZ
                if 2 ≤ r2.length ∧ bndEndOk ((after1.drop sp.length).drop r2.length) then
                  some (r1 ++ sp ++ r2)
                else none
              else none
            | [] => none
        match ext with
        | some m => some m
        | none => if bndEndOk after1 then some r1 else none
      else none
    else none

def findallBF : Nat → Option Char → List Char → List (List Char)
  | 0, _, _ => []
  | _, _, [] => []
  | fuel + 1, prev, s@(c :: rest) =>
    match bMatchAt prev s with
    | some m =>
      m :: findallBF fuel ((m.reverse).head?) (s.drop m.length)
    | none => findallBF fuel (some c) rest

/-- `re.findall(r'\b[A-Z]{2,}(?:\s+[A-Z]{2,})?\b', s)`. -/
def pyFindallB (s : List Char) : List (List Char) :=
  findallBF (s.length + 1) none s

/-- The reverse-scanning dedup loop of `extract_topics_from_history`. -/
def histLoop : List (List Char) → List (List Char) → List (List Char) → List (List Char)
  | [], _, topics => topics
  | m :: ms, seen, topics =>
    let n := pyStrip (subNonWordSpace m)
    if n ≠ [] ∧ n ∉ seen ∧ topics.length < 3 then
      histLoop ms (seen ++ [n]) (topics ++ [m])
    else histLoop ms seen topics

def extract_topics_from_history (hist : List Char) : List (List Char) :=
  if hist = [] then []
  else
    let found := pyFindallB hist
    if found = [] then []
    else (histLoop found.reverse [] []).reverse

/-! ### `_extract_all_acronyms` -/

def acrLoop : List (List Char) → List (List Char) → List (List Char) → List (List Char)
  | [], _, topics => topics
  | m :: ms, seen, topics =>
    let n := pyStrip (subNonWordSpace m)
    if n ≠ [] ∧ n ∉ seen ∧ 2 ≤ n.length then
      acrLoop ms (seen ++ [n]) (topics ++ [m])
    else acrLoop ms seen topics

def extract_all_acronyms (query : List Char) : List (List Char) :=
  acrLoop (pyFindallAcr query) [] []

/-! ### `_semantic_detection` structure patterns (existence only) -/

/-- `(?:첫|①|1(?:번째)?)\s*(?:과|와|그리고)\s*(?:두|②|2(?:번째)?)` -/
def semP1At (s : List Char) : Bool :=
  let firstCands : List (List Char) :=
    (match s with | '첫' :: r => [r] | _ => []) ++
    (match s with | '①' :: r => [r] | _ => []) ++
    (match s with
     | '1' :: r =>
       (match r with | '번' :: '째' :: r2 => [r2, r] | _ => [r])
     | _ => [])
  firstCands.any fun r =>
    match korAlt (r.dropWhile pyIsSpace) with
    | some r3 =>
      match r3.dropWhile pyIsSpace with
      | '두' :: _ => true
      | '②' :: _ => true
      | '2' :: _ => true
      | _ => false
    | none => false

/-- `(?:이것|그것|A)\s*(?:과|와|그리고)\s*(?:저것|B)` -/
def semP2At (s : List Char) : Bool :=
  let firstCands : List (List Char) :=
    (match s with | '이' :: '것' :: r => [r] | _ => []) ++
    (match s with | '그' :: '것' :: r => [r] | _ => []) ++
    (match s with | 'A' :: r => [r] | _ => [])
  firstCands.any fun r =>
    match korAlt (r.dropWhile pyIsSpace) with
    | some r3 =>
      match r3.dropWhile pyIsSpace with
      | '저' :: '것' :: _ => true
      | 'B' :: _ => true
      | _ => false
    | none => false

/-- `(?:전자|후자|앞|뒤)\s*(?:과|와|그리고)` -/
def semP3At (s : List Char) : Bool :=
  let firstCands : List (List Char) :=
    (match s with | '전' :: '자' :: r => [r] | _ => []) ++
    (match s with | '후' :: '자' :: r => [r] | _ => []) ++
    (match s with | '앞' :: r => [r] | _ => []) ++
    (match s with | '뒤' :: r => [r] | _ => [])
  firstCands.any fun r => (korAlt (r.dropWhile pyIsSpace)).isSome

/-- `(?:어느\s*것이|뭐가)\s*(?:다르|더|낫|좋)` -/
def semP4At (s : List Char) : Bool :=
  let firstCands : List (List Char) :=
    (match s with
     | '어' :: '느' :: r =>
       (match r.dropWhile pyIsSpace with
        | '것' :: '이' :: r2 => [r2]
        | _ => [])
     | _ => []) ++
    (match s with | '뭐' :: '가' :: r => [r] | _ => [])
  firstCands.any fun r =>
    match r.dropWhile pyIsSpace with
    | '다' :: '르' :: _ => true
    | '더' :: _ => true
    | '낫' :: _ => true
    | '좋' :: _ => true
    | _ => false

def semSearch (p : List Char → Bool) (s : List Char) : Bool :=
  (List.range s.length).any fun i => p (s.drop i)

/-! ### Results of the detection pipeline -/

/-- The dict returned by `detect_comparison_mode` and its helpers.  The
Python dict omits the `detection_method` key on the negative paths, hence
the `Option`.  The source's confidence values are the float literals 0.0,
0.6, 0.8, 0.85, 0.9, 0.95; they are only ever assigned and compared, so we
represent them exactly, scaled to hundredths. -/
structure CompResult where
  is_comparison : Bool
  topics : List String
  confidence : Nat
  detection_method : Option String
deriving DecidableEq, Repr

def noComparison : CompResult := ⟨false, [], 0, none⟩

/-- `_extract_vs_pattern`. -/
def extract_vs_pattern (query : List Char) : CompResult :=
  match vsSearch query with
  | some (g1, g2) =>
    ⟨true, [String.mk (pyStrip g1), String.mk (pyStrip g2)], 95, some "regex_vs"⟩
  | none =>
    match andSearch query with
    | some (g1, g2) =>
      let t1 := pyStrip g1
      let t2 := pyStrip g2
      if 1 < t1.length ∧ 1 < t2.length then
        ⟨true, [String.mk t1, String.mk t2], 90, some "regex_and"⟩
      else noComparison
    | none => noComparison

/-- The `for pattern in comparison_structures` loop of
`_semantic_detection`. -/
def semLoop (hist : List Char) : List Bool → CompResult
  | [] => noComparison
  | hit :: ps =>
    if hit then
      if 2 ≤ (extract_topics_from_history hist).length then
        ⟨true, ((extract_topics_from_history hist).take 2).map String.mk, 80, some "semantic"⟩
      else semLoop hist ps
    else semLoop hist ps

def semantic_detection (query hist : List Char) : CompResult :=
  semLoop hist
    [semSearch semP1At query, semSearch semP2At query,
     semSearch semP3At query, semSearch semP4At query]

/-- `ComparisonService.detect_comparison_mode`. -/
def detect_comparison_mode (query : String) (history : String := "")
    (conversation_context : Option (List String) := none) : CompResult :=
  let q := query.data
  if !check_comparison_intent q then noComparison
  else if (extract_vs_pattern q).topics ≠ [] then extract_vs_pattern q
  else if PRONOUN_KEYWORDS.any (fun p => containsSub q p.data)
      ∧ 2 ≤ (extract_topics_from_context q history.data conversation_context).length then
    ⟨true,
     ((extract_topics_from_context q history.data conversation_context).take 2).map String.mk,
     85, some "history"⟩
  else if (semantic_detection q history.data).is_comparison then
    semantic_detection q history.data
  else if 2 ≤ (extract_all_acronyms q).length then
    ⟨true, ((extract_all_acronyms q).take 2).map String.mk, 60, some "acronym"⟩
  else noComparison

/-! ### services/token_chunk_service.py — `TokenChunkService.chunk_text`

The tokenizer is an external collaborator: `encode`/`decode` are
parameters.  The windowing loop is embedded with explicit fuel: one unit
per iteration of the Python `while` loop, so the loop terminates in the
Python sense iff the embedded loop returns `some` for every sufficiently
large fuel.  Window offsets are integers and slices follow Python slice
semantics (negative bounds clamp from the end). -/

/-- Clamp a Python slice bound to `[0, n]`. -/
def pyBound (n : Nat) (i : Int) : Nat :=
  if i < 0 then (i + n).toNat else min i.toNat n

/-- Python `l[a:b]`. -/
def pySlice (l : List α) (a b : Int) : List α :=
  let i := pyBound l.length a
  let j := pyBound l.length b
  (l.drop i).take (j - i)

/-- The `while start < len(tokens)` loop of `chunk_text`.  Returns `none`
when the fuel is exhausted before the loop exits. -/
def chunk_text_loop (decode : List Nat → String) (tokens : List Nat)
    (chunk_tokens overlap_tokens min_chunk_tokens : Int) :
    Nat → Int → List String → Option (List String)
  | 0, _, _ => none
  | fuel + 1, start, chunks =>
    if start < (tokens.length : Int) then
      let endI : Int := min (start + chunk_tokens) (tokens.length : Int)
      let ids := pySlice tokens start endI
      let ctext := decode ids
      let chunks2 :=
        if min_chunk_tokens ≤ (ids.length : Int) ∧ pyStripStr ctext ≠ "" then
          chunks ++ [pyStripStr ctext]
        else chunks
      if (tokens.length : Int) ≤ endI then some chunks2
      else
        chunk_text_loop decode tokens chunk_tokens overlap_tokens
          min_chunk_tokens fuel (endI - overlap_tokens) chunks2
    else some chunks

/-- `TokenChunkService.chunk_text`. -/
def chunk_text (encode : String → List Nat) (decode : List Nat → String)
    (text : String) (chunk_tokens overlap_tokens min_chunk_tokens : Int)
    (fuel : Nat) : Option (List String) :=
  if text = "" ∨ pyStripStr text = "" then some []
  else
    chunk_text_loop decode (encode text) chunk_tokens overlap_tokens
      min_chunk_tokens fuel 0 []

/-! ### services/langchain_rag_service.py — `_select_prompt_template`

`LangChainRAGService.__init__` builds four separate `ChatPromptTemplate`
objects (`base`, `table`, `comparison`, `comparison_table`); the selector
returns one of these four object identities.  The identities are modelled
by an enumeration named after the instance attributes. -/

inductive PromptTemplateId where
  | base_prompt_template
  | table_prompt_template
  | comparison_prompt_template
  | comparison_table_prompt_template
deriving DecidableEq, Repr

/-- `LangChainRAGService._select_prompt_template` (the `topics` parameter
is only logged by the source, never used for selection). -/
def select_prompt_template (table_mode is_comparison : Bool)
    (_topics : List String) : PromptTemplateId :=
  if is_comparison ∧ table_mode then .comparison_table_prompt_template
  else if is_comparison then .comparison_prompt_template
  else if table_mode then .table_prompt_template
  else .base_prompt_template

/-! ### services/reranker_service.py — `RerankerService.rerank`

The cross-encoder is external: `predict` is `some f` when
`self.model.predict` succeeds on every pair (scoring each
`(query, content)` pair independently) and `none` when it raises.  Python
`sorted(..., key=..., reverse=True)` is a stable descending sort, which is
`List.mergeSort` with the reversed comparison. -/

structure RChunk where
  content : String := ""
  title : String := ""
  score : ℚ := 0
  rerank_score : Option ℚ := none
deriving DecidableEq

/-- The sort key `x.get('rerank_score', 0)`. -/
def rerankKey (c : RChunk) : ℚ := c.rerank_score.getD 0

/-- `RerankerService.rerank`. -/
def rerank (predict : Option (String → String → ℚ)) (query : String)
    (chunks : List RChunk) (top_k : Nat) : List RChunk :=
  if chunks.isEmpty then []
  else
    match predict with
    | none => chunks.take top_k
    | some f =>
      let scored := chunks.map fun c =>
        { c with rerank_score := some (f query c.content) }
      (scored.mergeSort fun a b => decide (rerankKey b ≤ rerankKey a)).take top_k

/-! ### services/langchain_rag_service.py — `SupabaseRetriever._get_chunk_url`

JSON metadata values are modelled by `PyMeta`; `json.loads` and the
`documents` table lookup are external parameters (`none` / `.error`
meaning the call raised). -/

inductive PyMeta where
  | mstr (s : String)
  | mdict (entries : List (String × String))
  | mother
deriving DecidableEq

/-- Python truthiness of a metadata value (`mother` stands for a
non-empty value of any other type). -/
def pyMetaTruthy : PyMeta → Bool
  | .mstr s => s ≠ ""
  | .mdict d => !d.isEmpty
  | .mother => true

structure SChunk where
  url : Option String := none
  metadata : Option PyMeta := none
  document_id : Option String := none
  title : String := ""
  content : String := ""
  source : String := ""
deriving DecidableEq

/-- Step 1 of `_get_chunk_url`: `chunk.get('url') and chunk.get('url').strip()`. -/
def chunk_url_direct (c : SChunk) : Bool :=
  match c.url with
  | some u => u ≠ "" && pyStripStr u ≠ ""
  | none => false

/-- Step 2 of `_get_chunk_url`: parse the chunk's own metadata blob; a
failed `json.loads` is swallowed and leaves the string value in place. -/
def chunk_url_from_metadata (jloads : String → Option PyMeta)
    (m : Option PyMeta) : String :=
  match m with
  | none => ""
  | some mv =>
    if pyMetaTruthy mv then
      let mv2 := match mv with
        | .mstr s => (jloads s).getD (.mstr s)
        | x => x
      match mv2 with
      | .mdict d =>
        match d.lookup "url" with
        | some u => if u ≠ "" then u else ""
        | none => ""
      | _ => ""
    else ""

/-- Step 3 of `_get_chunk_url`: fetch the parent document's metadata from
the `documents` table; any exception inside the block (query failure or
`json.loads`) is caught and yields no URL. -/
def chunk_url_from_document (jloads : String → Option PyMeta)
    (docMeta : String → Except Unit (Option PyMeta))
    (did : Option String) : String :=
  match did with
  | none => ""
  | some d =>
    if d = "" then ""
    else
      match docMeta d with
      | .error _ => ""
      | .ok none => ""
      | .ok (some mv) =>
        if pyMetaTruthy mv then
          match (match mv with | .mstr s => jloads s | x => some x) with
          | none => ""
          | some mv2 =>
            match mv2 with
            | .mdict dl =>
              match dl.lookup "url" with
              | some u => if u ≠ "" then u else ""
              | none => ""
            | _ => ""
        else ""

/-- `SupabaseRetriever._get_chunk_url`: the ordered three-tier fallback. -/
def get_chunk_url (jloads : String → Option PyMeta)
    (docMeta : String → Except Unit (Option PyMeta)) (c : SChunk) : String :=
  if chunk_url_direct c then c.url.getD ""
  else
    let t2 := chunk_url_from_metadata jloads c.metadata
    if t2 ≠ "" then t2
    else chunk_url_from_document jloads docMeta c.document_id

/-- The URL backfill step of `SupabaseRetriever.search_hybrid`:
`if not chunk.get('url') or not chunk.get('url').strip(): ...`. -/
def fix_chunk_url (jloads : String → Option PyMeta)
    (docMeta : String → Except Unit (Option PyMeta)) (c : SChunk) : SChunk :=
  if c.url.getD "" = "" ∨ pyStripStr (c.url.getD "") = "" then
    let u := get_chunk_url jloads docMeta c
    if u ≠ "" then { c with url := some u } else c
  else c

/-! ### services/langchain_rag_service.py — `_normalize_response`

`unicodedata.normalize('NFC', ·)` is external and passed as the `nfc`
parameter.  The remaining steps are embedded structurally:
`replace('\r\n','\n').replace('\r','\n')`, `re.sub(r'\n{3,}', '\n\n', ·)`,
per-line `re.sub(r' +', ' ', line.rstrip())`, join and `strip()`. -/

def replaceCRLF : List Char → List Char
  | [] => []
  | [c] => [c]
  | c :: d :: rest =>
    if c = '\r' then
      if d = '\n' then '\n' :: replaceCRLF rest
      else c :: replaceCRLF (d :: rest)
    else c :: replaceCRLF (d :: rest)

def replaceCR : List Char → List Char :=
  List.map fun c => if c = '\r' then '\n' else c

/-- Output for a run of `k` consecutive newlines under `\n{3,} → \n\n`. -/
def emitNl (k : Nat) : List Char :=
  if 3 ≤ k then ['\n', '\n'] else List.replicate k '\n'

/-- State machine for `re.sub(r'\n{3,}', '\n\n', ·)`: `k` counts the
pending run of newlines. -/
def nlGo : List Char → Nat → List Char
  | [], k => emitNl k
  | '\n' :: rest, k => nlGo rest (k + 1)
  | c :: rest, k => emitNl k ++ c :: nlGo rest 0

def collapseNewlines (l : List Char) : List Char := nlGo l 0

/-- State machine for `re.sub(r' +', ' ', ·)`: the flag records whether
the previous character was a space. -/
def spGo : List Char → Bool → List Char
  | [], _ => []
  | c :: rest, b =>
    if c = ' ' then
      if b then spGo rest true else ' ' :: spGo rest true
    else c :: spGo rest false

def collapseSpaces (l : List Char) : List Char := spGo l false

/-- `text.split('\n')`. -/
def splitNL : List Char → List (List Char)
  | [] => [[]]
  | c :: rest =>
    if c = '\n' then [] :: splitNL rest
    else
      match splitNL rest with
      | l :: ls => (c :: l) :: ls
      | [] => [[c]]

/-- `'\n'.join(·)`. -/
def joinNL : List (List Char) → List Char
  | [] => []
  | l :: ls => if ls.isEmpty then l else l ++ '\n' :: joinNL ls

/-- `re.sub(r' +', ' ', line.rstrip())`. -/
def cleanLine (l : List Char) : List Char := collapseSpaces (pyRStrip l)

/-- The cleanup pipeline of `_normalize_response` after the NFC step. -/
def normalizeChars (l : List Char) : List Char :=
  pyStrip (joinNL ((splitNL (collapseNewlines (replaceCR (replaceCRLF l)))).map cleanLine))

/-- `LangChainRAGService._normalize_response`. -/
def normalize_response (nfc : String → String) (response : String) : String :=
  String.mk (normalizeChars (nfc response).data)

/-! ### routers/chat_router.py — `generate_stream`

The streaming endpoint is embedded as an event-trace function.  External
effects are parameters: the RAG phase's outcome (`RagOutcome`), the
message-store insert's success flag, the periodic
`request.is_disconnected()` answers (`disc`), and whether the task is
cancelled at the `asyncio.sleep` following the `i`-th character
(`cancel`).  PHASE 4's reformatting regexes are embedded below as
`pyFormat`. -/

/-- Find the CPython backtracking solution when `\s+` runs to the end of
the string: the largest split `k ≥ 1` of the whitespace run such that
`[^\n]+` can still start (a non-newline character). -/
def backtrackWsMatch (ws : List Char) : Option (Nat × List Char) :=
  ((List.range ws.length).reverse).findSome? fun k =>
    if k = 0 then none
    else
      match ws.drop k with
      | d :: _ =>
        if d ≠ '\n' then some (k, (ws.drop k).takeWhile (· ≠ '\n')) else none
      | [] => none

/-- `re.sub(r'(\d+\.)\s+', r'\1\n\n', ·)` with fuel (one unit per scanned
position; each step consumes at least one character). -/
def sub1F : Nat → List Char → List Char
  | 0, s => s
  | fuel + 1, s =>
    match s with
    | [] => []
    | c :: rest =>
      if c.isDigit then
        let ds := s.takeWhile Char.isDigit
        match s.drop ds.length with
        | '.' :: after2 =>
          let ws := after2.takeWhile pyIsSpace
          if ws.isEmpty then c :: sub1F fuel rest
          else ds ++ '.' :: '\n' :: '\n' :: sub1F fuel (after2.drop ws.length)
        | _ => c :: sub1F fuel rest
      else c :: sub1F fuel rest

/-- `re.sub(r'(#{1,3})\s+([^\n]+)', r'\1 \2\n\n', ·)` with fuel.  A run of
more than three `#` cannot match at its own start (the character after the
hashes must be whitespace), and `[^\n]+` is the maximal non-newline run;
when `\s+` reaches the end of the string the engine backtracks and lets
`[^\n]+` absorb a whitespace tail. -/
def sub2F : Nat → List Char → List Char
  | 0, s => s
  | fuel + 1, s =>
    match s with
    | [] => []
    | c :: rest =>
      if c = '#' then
        let hr := s.takeWhile (· = '#')
        if hr.length ≤ 3 then
          let after := s.drop hr.length
          let ws := after.takeWhile pyIsSpace
          if ws.isEmpty then c :: sub2F fuel rest
          else
            let afterWs := after.drop ws.length
            if afterWs.isEmpty then
              match backtrackWsMatch ws with
              | some (k, g2) =>
                hr ++ ' ' :: g2 ++ '\n' :: '\n' ::
                  sub2F fuel ((ws.drop k).drop g2.length)
              | none => c :: sub2F fuel rest
            else
              let g2 := afterWs.takeWhile (· ≠ '\n')
              hr ++ ' ' :: g2 ++ '\n' :: '\n' :: sub2F fuel (afterWs.drop g2.length)
        else c :: sub2F fuel rest
      else c :: sub2F fuel rest

/-- `re.sub(r'(-\s+[^\n]+)', r'\1\n', ·)` with fuel; the replacement keeps
the whole match and appends a newline. -/
def sub3F : Nat → List Char → List Char
  | 0, s => s
  | fuel + 1, s =>
    match s with
    | [] => []
    | c :: rest =>
      if c = '-' then
        let ws := rest.takeWhile pyIsSpace
        if ws.isEmpty then c :: sub3F fuel rest
        else
          let afterWs := rest.drop ws.length
          if afterWs.isEmpty then
            match backtrackWsMatch ws with
            | some (k, g2) =>
              '-' :: ws.take k ++ g2 ++ '\n' ::
                sub3F fuel ((ws.drop k).drop g2.length)
            | none => c :: sub3F fuel rest
          else
            let g2 := afterWs.takeWhile (· ≠ '\n')
            '-' :: ws ++ g2 ++ '\n' :: sub3F fuel (afterWs.drop g2.length)
      else c :: sub3F fuel rest

def emitNl4 (k : Nat) : List Char :=
  if 4 ≤ k then ['\n', '\n'] else List.replicate k '\n'

/-- State machine for `re.sub(r'\n{4,}', '\n\n', ·)`. -/
def nl4Go : List Char → Nat → List Char
  | [], k => emitNl4 k
  | '\n' :: rest, k => nl4Go rest (k + 1)
  | c :: rest, k => emitNl4 k ++ c :: nl4Go rest 0

def collapseNewlines4 (l : List Char) : List Char := nl4Go l 0

/-- PHASE 4 of `generate_stream`: numbered-list, heading and bullet
normalization, the references placeholder, and newline cleanup. -/
def pyFormatChars (l : List Char) : List Char :=
  let f1 := sub1F (l.length + 1) l
  let f2 := sub2F (f1.length + 1) f1
  let f3 := sub3F (f2.length + 1) f2
  let f4 :=
    if !containsSub f3 "참고 문서".data && !containsSub f3 "📚".data then
      f3 ++ "\n\n📚 참고 문서:\n(검색 결과 없음)".data
    else f3
  collapseNewlines4 f4

def pyFormat (s : String) : String := String.mk (pyFormatChars s.data)

/-- The accumulation `if token: full_response += token` over the tokens
yielded by `process_query_streaming`. -/
def joinTruthy (tokens : List String) : String :=
  tokens.foldl (fun acc t => if t ≠ "" then acc ++ t else acc) ""

/-- A server-sent frame of the web delivery path. -/
inductive Frame where
  | token (c : Char)
  | error (msg : String)
  | done
deriving DecidableEq, Repr

def isTerminal : Frame → Bool
  | .token _ => false
  | .error _ => true
  | .done => true

/-- An observable event of one `generate_stream` run: the message-store
insert attempt, or a frame sent to the client. -/
inductive Event where
  | persist (text : String) (ok : Bool)
  | frame (f : Frame)
deriving DecidableEq, Repr

/-- PHASE 6: `for i, char in enumerate(formatted)` — every 100 characters
check `request.is_disconnected()` and return silently if so; yield the
token frame; the following `asyncio.sleep` is the cancellation point
(`CancelledError` returns silently).  After the loop, one `done` frame. -/
def emitLoop (disc cancel : Nat → Bool) : List Char → Nat → List Frame
  | [], _ => [Frame.done]
  | c :: rest, i =>
    if i % 100 = 0 ∧ disc i then []
    else if cancel i then [Frame.token c]
    else Frame.token c :: emitLoop disc cancel rest (i + 1)

/-- Outcome of the RAG phase under `asyncio.wait_for(..., timeout=120)`. -/
inductive RagOutcome where
  | ok (tokens : List String)
  | timeout
  | err (msg : String)

/-- The user-facing message of the generic exception handler. -/
def userErrorMessage (e : String) : String :=
  let le := pyLower e.data
  let base :=
    if containsSub le "timeout".data then "요청 처리 시간이 초과되었습니다."
    else if containsSub le "connection".data then "네트워크 연결에 문제가 발생했습니다."
    else if containsSub le "embedding".data then "문서 검색 중 오류가 발생했습니다."
    else if containsSub le "hybrid".data then "하이브리드 검색 중 오류가 발생했습니다."
    else "죄송합니다. 일시적인 오류가 발생했습니다."
  base ++ " 잠시 후 다시 시도해 주세요."

/-- The event trace of one `generate_stream` run. -/
def generate_stream_trace (out : RagOutcome) (saveOk : Bool)
    (disc cancel : Nat → Bool) : List Event :=
  match out with
  | .timeout => [.frame (.error "요청 처리 시간이 초과되었습니다.")]
  | .err m => [.frame (.error (userErrorMessage m))]
  | .ok tokens =>
    let formatted := pyFormat (joinTruthy tokens)
    .persist formatted saveOk :: (emitLoop disc cancel formatted.data 0).map .frame

/-- The frames of a trace, in delivery order. -/
def framesOf (tr : List Event) : List Frame :=
  tr.filterMap fun e => match e with | .frame f => some f | .persist _ _ => none

/-! ### Character-level predicates used in the normalization proofs -/

/-- The last character (if any) is not whitespace, i.e. `rstrip` is a
no-op. -/
def lastNotSpace : List Char → Bool
  | [] => true
  | c :: rest => if rest.isEmpty then !pyIsSpace c else lastNotSpace rest

/-- No two adjacent plain spaces, i.e. `re.sub(' +', ' ', ·)` is a
no-op. -/
def noDblSpace : List Char → Bool
  | [] => true
  | [_] => true
  | a :: b :: rest => !(a == ' ' && b == ' ') && noDblSpace (b :: rest)

/-- Every line of `x` is a fixed point of the per-line cleanup. -/
def LinesClean (x : List Char) : Prop := ∀ l ∈ splitNL x, cleanLine l = l

/-! ## Theorems -/

/-! ### C1 — the chunker does not validate `overlap_tokens < chunk_tokens` -/

/-- C1: the claim says `chunk_text` validates the configuration and fails
fast when `overlap_tokens ≥ chunk_tokens`.  The code has no such
validation: with `chunk_tokens = overlap_tokens = 2` on a text of three
tokens the window stride is zero and the `while` loop never exits — for
every fuel the embedded loop is still running (`none`), for every decoder
and every `min_chunk_tokens`. -/
theorem chunk_text_nonterminating_on_invalid_config :
    ∀ (decode : List Nat → String) (min_chunk_tokens : Int) (fuel : Nat),
      chunk_text (fun _ => [0, 1, 2]) decode "abc" 2 2 min_chunk_tokens fuel = none := by
  intro decode minT fuel
  have key : ∀ f (chunks : List String),
      chunk_text_loop decode [0, 1, 2] 2 2 minT f 0 chunks = none := by
    intro f
    induction f with
    | zero => intro chunks; rfl
    | succ n ih =>
      intro chunks
      rw [chunk_text_loop]
      norm_num
      exact ih _
  have htext : ¬("abc" = "" ∨ pyStripStr "abc" = "") := by decide
  rw [chunk_text, if_neg htext]
  exact key fuel []

/-! ### C2 — `detect("IMO DCS vs EU MRV")` -/

/-- C2 counterexample: the claim says the topics are exactly
`["IMO DCS", "EU MRV"]` with method tag `"explicit_pair"`.  The source
regex captures only runs of non-whitespace around `vs`, and tags the
result `"regex_vs"`. -/
theorem detect_imo_vs_mrv_counterexample :
    (detect_comparison_mode "IMO DCS vs EU MRV" "" none).topics ≠ ["IMO DCS", "EU MRV"]
    ∧ (detect_comparison_mode "IMO DCS vs EU MRV" "" none).detection_method ≠ some "explicit_pair" := by
  decide

/-- C2 amended: `detect_comparison_mode` on `"IMO DCS vs EU MRV"` (empty
history) returns `is_comparison = true` with confidence 0.95 ≥ 0.9, but
the topics are the single non-whitespace tokens around `vs`,
`["DCS", "EU"]`, and the detection-method tag is `"regex_vs"`. -/
theorem detect_imo_vs_mrv_actual :
    detect_comparison_mode "IMO DCS vs EU MRV" "" none
      = ⟨true, ["DCS", "EU"], 95, some "regex_vs"⟩
    ∧ 90 ≤ (detect_comparison_mode "IMO DCS vs EU MRV" "" none).confidence := by
  decide

/-! ### C3 — mode selection -/

/-- C3: `_select_prompt_template` is a pure, total, deterministic function
of the two booleans: it never depends on the `topics` argument, yields the
same template on identical inputs, and the four `(table_mode,
is_comparison)` combinations map to the four pairwise-distinct template
identities built in `__init__`. -/
theorem select_prompt_template_pure_total_distinct :
    (∀ t c ts1 ts2, select_prompt_template t c ts1 = select_prompt_template t c ts2)
    ∧ (∀ t c ts, select_prompt_template t c ts = select_prompt_template t c ts)
    ∧ select_prompt_template false false [] = .base_prompt_template
    ∧ select_prompt_template true false [] = .table_prompt_template
    ∧ select_prompt_template false true [] = .comparison_prompt_template
    ∧ select_prompt_template true true [] = .comparison_table_prompt_template
    ∧ (PromptTemplateId.base_prompt_template ≠ .table_prompt_template
      ∧ PromptTemplateId.base_prompt_template ≠ .comparison_prompt_template
      ∧ PromptTemplateId.base_prompt_template ≠ .comparison_table_prompt_template
      ∧ PromptTemplateId.table_prompt_template ≠ .comparison_prompt_template
      ∧ PromptTemplateId.table_prompt_template ≠ .comparison_table_prompt_template
      ∧ PromptTemplateId.comparison_prompt_template ≠ .comparison_table_prompt_template) := by
  refine ⟨fun t c ts1 ts2 => by cases t <;> cases c <;> rfl,
    fun t c ts => rfl, ?_, ?_, ?_, ?_, ?_⟩ <;> decide

/-! ### C5 — pronoun + history fallback -/

/-- C5 counterexample: the claim says the two returned topics are the most
recently occurring distinct acronym tokens of the history (reverse scan,
chronological output) — here `["BB", "CC"]`.  The source's
`_extract_topics_from_context` scans the history forward and keeps the
first distinct tokens, so the result is `["AA", "BB"]`. -/
theorem history_fallback_counterexample :
    detect_comparison_mode "두개 비교해줘" "AA. BB. CC." none
      = ⟨true, ["AA", "BB"], 85, some "history"⟩
    ∧ (detect_comparison_mode "두개 비교해줘" "AA. BB. CC." none).topics ≠ ["BB", "CC"] := by
  decide

/-- C5 amended: in the pronoun-plus-history fallback (comparison intent
present, no explicit `vs`/`와` pair, a pronoun keyword in the query, and
the history yielding at least two topics), the returned topics are the
first two entries of the forward scan of
`_extract_topics_from_context` — the earliest distinct acronym-like
tokens, not the most recent ones — with confidence 0.85 and method tag
`"history"`. -/
theorem history_fallback_amended (q h : String)
    (h1 : check_comparison_intent q.data = true)
    (h2 : (extract_vs_pattern q.data).topics = [])
    (h3 : PRONOUN_KEYWORDS.any (fun p => containsSub q.data p.data) = true)
    (h4 : 2 ≤ (extract_topics_from_context q.data h.data none).length) :
    detect_comparison_mode q h none
      = ⟨true, ((extract_topics_from_context q.data h.data none).take 2).map String.mk,
         85, some "history"⟩ := by
  rw [detect_comparison_mode]
  simp only [h1, Bool.not_true, Bool.false_eq_true, if_false, h2, ne_eq,
    not_true_eq_false, if_false]
  rw [if_pos ⟨h3, h4⟩]

/-- Closed instance of the amended C5 statement. -/
theorem history_fallback_amended_witness :
    detect_comparison_mode "두개 비교해줘" "AA. BB. CC." none
      = ⟨true, ((extract_topics_from_context "두개 비교해줘".data "AA. BB. CC.".data none).take 2).map String.mk,
         85, some "history"⟩ :=
  history_fallback_amended "두개 비교해줘" "AA. BB. CC."
    (by decide) (by decide) (by decide) (by decide)

/-! ### C4 — the `ComparisonIntent` invariant -/

/-- Every result of `_extract_vs_pattern` is either the negative result or
a positive one with exactly two topics. -/
theorem extract_vs_pattern_shape (q : List Char) :
    extract_vs_pattern q = noComparison
    ∨ ((extract_vs_pattern q).is_comparison = true
        ∧ (extract_vs_pattern q).topics.length = 2) := by
  rw [extract_vs_pattern]
  rcases vsSearch q with _ | ⟨g1, g2⟩
  · rcases andSearch q with _ | ⟨g1, g2⟩
    · exact Or.inl rfl
    · dsimp only
      split
      · exact Or.inr ⟨rfl, rfl⟩
      · exact Or.inl rfl
  · exact Or.inr ⟨rfl, rfl⟩

/-- Every result of the `_semantic_detection` loop is either negative or
positive with exactly two topics. -/
theorem semLoop_shape (hist : List Char) (ps : List Bool) :
    semLoop hist ps = noComparison
    ∨ ((semLoop hist ps).is_comparison = true
        ∧ (semLoop hist ps).topics.length = 2) := by
  induction ps with
  | nil => exact Or.inl rfl
  | cons hit ps ih =>
    rw [semLoop]
    split
    · split
      · rename_i hlen
        refine Or.inr ⟨rfl, ?_⟩
        simp [List.length_take, Nat.min_eq_left hlen]
      · exact ih
    · exact ih

/-- The shape lemma transported to `_semantic_detection` itself. -/
theorem semantic_detection_shape (q hist : List Char) :
    semantic_detection q hist = noComparison
    ∨ ((semantic_detection q hist).is_comparison = true
        ∧ (semantic_detection q hist).topics.length = 2) :=
  semLoop_shape hist
    [semSearch semP1At q, semSearch semP2At q,
     semSearch semP3At q, semSearch semP4At q]

/-- C4: for every query, history and conversation context, the result of
`detect_comparison_mode` satisfies the data-model invariant: the topics
list has length 0 or exactly 2; `is_comparison = true` forces length 2 and
`is_comparison = false` forces the empty list. -/
theorem detect_comparison_topics_invariant (query history : String)
    (ctx : Option (List String)) :
    ((detect_comparison_mode query history ctx).topics.length = 0
      ∨ (detect_comparison_mode query history ctx).topics.length = 2)
    ∧ ((detect_comparison_mode query history ctx).is_comparison = true
        → (detect_comparison_mode query history ctx).topics.length = 2)
    ∧ ((detect_comparison_mode query history ctx).is_comparison = false
        → (detect_comparison_mode query history ctx).topics = []) := by
  have hno : (noComparison.topics.length = 0 ∨ noComparison.topics.length = 2)
      ∧ (noComparison.is_comparison = true → noComparison.topics.length = 2)
      ∧ (noComparison.is_comparison = false → noComparison.topics = []) := by decide
  rw [detect_comparison_mode]
  by_cases hI : check_comparison_intent query.data
  case neg => simpa [hI] using hno
  case pos =>
    simp only [hI, Bool.not_true, Bool.false_eq_true, if_false]
    rcases extract_vs_pattern_shape query.data with hvs | ⟨hvs1, hvs2⟩
    · have hne : ¬((extract_vs_pattern query.data).topics ≠ []) := by
        rw [hvs]; simp [noComparison]
      rw [if_neg hne]
      by_cases h3 : (PRONOUN_KEYWORDS.any fun p => containsSub query.data p.data) = true
          ∧ 2 ≤ (extract_topics_from_context query.data history.data ctx).length
      case pos =>
        rw [if_pos h3]
        exact ⟨Or.inr (by simp [List.length_take, Nat.min_eq_left h3.2]),
          fun _ => by simp [List.length_take, Nat.min_eq_left h3.2],
          fun hcon => by simp at hcon⟩
      case neg =>
        rw [if_neg h3]
        rcases semantic_detection_shape query.data history.data with hsem | ⟨hs1, hs2⟩
        · rw [hsem]
          simp only [noComparison, Bool.false_eq_true, if_false]
          by_cases h5 : 2 ≤ (extract_all_acronyms query.data).length
          · rw [if_pos h5]
            exact ⟨Or.inr (by simp [List.length_take, Nat.min_eq_left h5]),
              fun _ => by simp [List.length_take, Nat.min_eq_left h5],
              fun hcon => by simp at hcon⟩
          · rw [if_neg h5]; exact hno
        · rw [if_pos hs1]
          exact ⟨Or.inr hs2, fun _ => hs2,
            fun hcon => by rw [hs1] at hcon; exact Bool.noConfusion hcon⟩
    · have hne : (extract_vs_pattern query.data).topics ≠ [] := by
        intro hcon
        rw [hcon] at hvs2
        exact absurd hvs2 (by decide)
      rw [if_pos hne]
      exact ⟨Or.inr hvs2, fun _ => hvs2,
        fun hcon => by rw [hvs1] at hcon; exact Bool.noConfusion hcon⟩

/-! ### C7 — reranker failure fallback and success ordering -/

/-- C7: when the scoring model raises, `rerank` returns the input passages
in their original order truncated to `top_k` instead of propagating the
failure; when scoring succeeds, the result is the score-attached passages
in stable descending `rerank_score` order, truncated to `top_k`. -/
theorem rerank_failure_fallback_and_sorted :
    (∀ (query : String) (chunks : List RChunk) (top_k : Nat),
        rerank none query chunks top_k = chunks.take top_k)
    ∧ (∀ (f : String → String → ℚ) (query : String) (chunks : List RChunk) (top_k : Nat),
        ∃ l : List RChunk,
          l.Perm (chunks.map fun c => { c with rerank_score := some (f query c.content) })
          ∧ l.Pairwise (fun a b => rerankKey b ≤ rerankKey a)
          ∧ rerank (some f) query chunks top_k = l.take top_k) := by
  constructor
  · intro q chunks k
    cases chunks with
    | nil => simp [rerank]
    | cons a as => rfl
  · intro f q chunks k
    cases chunks with
    | nil => exact ⟨[], by simp, by simp, by simp [rerank]⟩
    | cons a as =>
      refine ⟨_, ?_, ?_, rfl⟩
      · exact List.mergeSort_perm _ _
      refine List.Pairwise.imp (fun hab => of_decide_eq_true hab)
        (List.sorted_mergeSort ?_ ?_ _)
      · intro x y z hxy hyz
        exact decide_eq_true (le_trans (of_decide_eq_true hyz) (of_decide_eq_true hxy))
      · intro x y
        rcases le_total (rerankKey y) (rerankKey x) with h1 | h1 <;> simp [h1]

/-! ### C8 — three-tier URL resolution -/

/-- C8: a passage whose direct `url` field is absent or blank and whose own
metadata yields no URL gets the parent document's `metadata.url` populated
by the backfill step of `search_hybrid`; a passage with a non-blank direct
`url` is returned unchanged. -/
theorem chunk_url_three_tier_fallback :
    (∀ (jloads : String → Option PyMeta)
        (docMeta : String → Except Unit (Option PyMeta)) (c : SChunk)
        (did u : String) (entries : List (String × String)),
        (c.url.getD "" = "" ∨ pyStripStr (c.url.getD "") = "") →
        chunk_url_from_metadata jloads c.metadata = "" →
        c.document_id = some did → did ≠ "" →
        docMeta did = .ok (some (.mdict entries)) →
        entries.lookup "url" = some u → u ≠ "" →
        fix_chunk_url jloads docMeta c = { c with url := some u })
    ∧ (∀ (jloads : String → Option PyMeta)
        (docMeta : String → Except Unit (Option PyMeta)) (c : SChunk) (u : String),
        c.url = some u → u ≠ "" → pyStripStr u ≠ "" →
        fix_chunk_url jloads docMeta c = c) := by
  constructor
  · intro jl dm c did u entries hblank ht2 hdid hdne hdm hlk hu
    have hdir : chunk_url_direct c = false := by
      rw [chunk_url_direct]
      cases hc : c.url with
      | none => rfl
      | some v =>
        rw [hc] at hblank
        simp only [Option.getD_some] at hblank
        rcases hblank with hb | hb <;> simp [hb]
    have hne : entries ≠ [] := by
      intro hcon
      rw [hcon] at hlk
      exact Option.noConfusion hlk
    have h3 : chunk_url_from_document jl dm c.document_id = u := by
      rw [hdid, chunk_url_from_document, if_neg hdne, hdm]
      have htr : pyMetaTruthy (.mdict entries) = true := by
        simp [pyMetaTruthy, hne]
      dsimp only
      rw [if_pos htr]
      rw [hlk]
      dsimp only
      rw [if_pos hu]
    have hg : get_chunk_url jl dm c = u := by
      rw [get_chunk_url, if_neg (by rw [hdir]; exact Bool.false_ne_true)]
      simp only [ht2, ne_eq, not_true_eq_false, if_false]
      exact h3
    rw [fix_chunk_url, if_pos hblank, hg, if_pos hu]
  · intro jl dm c u hc hu hs
    rw [fix_chunk_url, if_neg]
    simp [hc, hu, hs]

/-- Closed instance of the C8 theorem: a chunk with no direct URL and no
own metadata, whose parent document carries a URL, comes back with that
URL populated. -/
theorem chunk_url_three_tier_fallback_witness :
    fix_chunk_url (fun _ => none)
      (fun _ => .ok (some (.mdict [("url", "https://wiki.example/page")])))
      { url := none, metadata := none, document_id := some "doc-1" }
      = { url := some "https://wiki.example/page", metadata := none,
          document_id := some "doc-1" } :=
  chunk_url_three_tier_fallback.1 (fun _ => none)
    (fun _ => .ok (some (.mdict [("url", "https://wiki.example/page")])))
    { url := none, metadata := none, document_id := some "doc-1" }
    "doc-1" "https://wiki.example/page" [("url", "https://wiki.example/page")]
    (by decide) (by decide) rfl (by decide) rfl rfl (by decide)

/-! ### C6 / C10 — web streaming delivery -/

/-- `framesOf` ignores the leading persist event. -/
theorem framesOf_persist_cons (t : String) (ok : Bool) (tr : List Event) :
    framesOf (Event.persist t ok :: tr) = framesOf tr := by
  rw [framesOf, List.filterMap_cons]
  rfl

/-- `framesOf` inverts `map Event.frame`. -/
theorem framesOf_map_frame (l : List Frame) : framesOf (l.map Event.frame) = l := by
  induction l with
  | nil => rfl
  | cons a l ih =>
    rw [List.map_cons, framesOf, List.filterMap_cons]
    dsimp only
    rw [framesOf] at ih
    rw [ih]

/-- The frames of a successful run are exactly the emit loop's output. -/
theorem framesOf_ok (toks : List String) (saveOk : Bool) (disc cancel : Nat → Bool) :
    framesOf (generate_stream_trace (.ok toks) saveOk disc cancel)
      = emitLoop disc cancel (pyFormat (joinTruthy toks)).data 0 := by
  rw [generate_stream_trace]
  rw [framesOf_persist_cons, framesOf_map_frame]

/-- If the first firing disconnect check is at index `k` (and no earlier
cancellation), the emit loop delivers exactly the first `k` token frames
and stops. -/
theorem emitLoop_take_of_disc (disc cancel : Nat → Bool) :
    ∀ (chars : List Char) (i k : Nat), k < chars.length → (i + k) % 100 = 0 →
      disc (i + k) = true →
      (∀ j, i ≤ j → j < i + k → (j % 100 = 0 → disc j = false) ∧ cancel j = false) →
      emitLoop disc cancel chars i = (chars.take k).map Frame.token := by
  intro chars
  induction chars with
  | nil => intro i k hk _ _ _; exact absurd hk (by simp)
  | cons c rest ih =>
    intro i k hk hmod hdisc hprev
    cases k with
    | zero =>
      rw [emitLoop, if_pos ⟨by simpa using hmod, by simpa using hdisc⟩]
      rfl
    | succ k2 =>
      have hji := hprev i le_rfl (by omega)
      have hnd : ¬(i % 100 = 0 ∧ disc i = true) := by
        rintro ⟨hm, hbad⟩
        rw [hji.1 hm] at hbad
        exact Bool.noConfusion hbad
      have hsum : i + 1 + k2 = i + (k2 + 1) := by omega
      have hlen : k2 < rest.length := by
        simp only [List.length_cons] at hk
        omega
      rw [emitLoop, if_neg hnd, if_neg (by rw [hji.2]; exact Bool.false_ne_true),
        ih (i + 1) k2 hlen (by rw [hsum]; exact hmod) (by rw [hsum]; exact hdisc)
          (fun j hj1 hj2 => hprev j (by omega) (by omega))]
      rfl

/-- If the task is first cancelled at character index `k` (no earlier
cancellation and no firing disconnect check up to and including `k`), the
emit loop delivers the token frames for the first `k + 1` characters — the
frame for index `k` was already yielded when the `await` raises
`CancelledError` — and then stops silently: no done frame. -/
theorem emitLoop_take_of_cancel (disc cancel : Nat → Bool) :
    ∀ (chars : List Char) (i k : Nat), k < chars.length →
      cancel (i + k) = true →
      (∀ j, i ≤ j → j < i + k → cancel j = false) →
      (∀ j, i ≤ j → j ≤ i + k → j % 100 = 0 → disc j = false) →
      emitLoop disc cancel chars i = (chars.take (k + 1)).map Frame.token := by
  intro chars
  induction chars with
  | nil => intro i k hk _ _ _; exact absurd hk (by simp)
  | cons c rest ih =>
    intro i k hk hcan hprev hdisc
    have hnd : ¬(i % 100 = 0 ∧ disc i = true) := by
      rintro ⟨hm, hbad⟩
      rw [hdisc i le_rfl (by omega) hm] at hbad
      exact Bool.noConfusion hbad
    cases k with
    | zero =>
      rw [emitLoop, if_neg hnd, if_pos (by simpa using hcan)]
      rfl
    | succ k2 =>
      have hnc : cancel i = false := hprev i le_rfl (by omega)
      have hsum : i + 1 + k2 = i + (k2 + 1) := by omega
      have hlen : k2 < rest.length := by
        simp only [List.length_cons] at hk
        omega
      rw [emitLoop, if_neg hnd, if_neg (by rw [hnc]; exact Bool.false_ne_true),
        ih (i + 1) k2 hlen (by rw [hsum]; exact hcan)
          (fun j hj1 hj2 => hprev j (by omega) (by omega))
          (fun j hj1 hj2 hm => hdisc j (by omega) (by omega) hm)]
      rfl

/-- Every frame before the last one emitted by the loop is a token frame. -/
theorem emitLoop_terminal_last (disc cancel : Nat → Bool) :
    ∀ (chars : List Char) (i : Nat),
      ∀ f ∈ (emitLoop disc cancel chars i).dropLast, isTerminal f = false := by
  intro chars
  induction chars with
  | nil => intro i f hf; simp [emitLoop] at hf
  | cons c rest ih =>
    intro i f hf
    rw [emitLoop] at hf
    by_cases h1 : i % 100 = 0 ∧ disc i = true
    · rw [if_pos h1] at hf
      simp at hf
    · rw [if_neg h1] at hf
      by_cases h2 : cancel i = true
      · rw [if_pos h2] at hf
        simp at hf
      · rw [if_neg h2] at hf
        cases hl : emitLoop disc cancel rest (i + 1) with
        | nil => rw [hl] at hf; simp at hf
        | cons b bs =>
          rw [hl] at hf
          rw [show (Frame.token c :: b :: bs).dropLast
              = Frame.token c :: (b :: bs).dropLast from rfl] at hf
          rcases List.mem_cons.mp hf with hf | hf
          · subst hf; rfl
          · exact ih (i + 1) f (by rw [hl]; exact hf)

/-- C6: in the web delivery path, once cancellation is observed no further
frames of any kind are emitted.  First part (disconnect trigger): if the
periodic client-disconnect check fires at character index `k` (no earlier
check fired and the task was not cancelled before), the delivered frames
are exactly the token frames for the first `k` characters — no error and
no done frame follows the abort.  Second part (task cancellation): if the
stream task is first cancelled at character index `k` (and no disconnect
check fired up to `k`), the delivered frames are exactly the token frames
for the first `k + 1` characters — the frame at index `k` was already
yielded when `CancelledError` is raised at the following `await` — and
nothing follows: in particular no done frame, since the `except
asyncio.CancelledError` handler returns silently.  Third part: in every
run (success, timeout, or error), a terminal `done`/`error` frame can only
be the very last frame. -/
theorem web_stream_no_frames_after_cancellation :
    (∀ (tokens : List String) (saveOk : Bool) (disc cancel : Nat → Bool) (k : Nat),
        k < (pyFormat (joinTruthy tokens)).data.length →
        k % 100 = 0 → disc k = true →
        (∀ j, j < k → (j % 100 = 0 → disc j = false) ∧ cancel j = false) →
        framesOf (generate_stream_trace (.ok tokens) saveOk disc cancel)
          = ((pyFormat (joinTruthy tokens)).data.take k).map Frame.token
        ∧ ∀ f ∈ framesOf (generate_stream_trace (.ok tokens) saveOk disc cancel),
            isTerminal f = false)
    ∧ (∀ (tokens : List String) (saveOk : Bool) (disc cancel : Nat → Bool) (k : Nat),
        k < (pyFormat (joinTruthy tokens)).data.length →
        cancel k = true →
        (∀ j, j < k → cancel j = false) →
        (∀ j, j ≤ k → j % 100 = 0 → disc j = false) →
        framesOf (generate_stream_trace (.ok tokens) saveOk disc cancel)
          = ((pyFormat (joinTruthy tokens)).data.take (k + 1)).map Frame.token
        ∧ ∀ f ∈ framesOf (generate_stream_trace (.ok tokens) saveOk disc cancel),
            isTerminal f = false)
    ∧ (∀ (out : RagOutcome) (saveOk : Bool) (disc cancel : Nat → Bool),
        ∀ f ∈ (framesOf (generate_stream_trace out saveOk disc cancel)).dropLast,
          isTerminal f = false) := by
  refine ⟨?_, ?_, ?_⟩
  · intro toks saveOk disc cancel k hk hmod hdisc hprev
    have heq : framesOf (generate_stream_trace (.ok toks) saveOk disc cancel)
        = ((pyFormat (joinTruthy toks)).data.take k).map Frame.token := by
      rw [framesOf_ok]
      exact emitLoop_take_of_disc disc cancel _ 0 k hk (by simpa using hmod)
        (by simpa using hdisc) (fun j _ hj2 => hprev j (by omega))
    refine ⟨heq, fun f hf => ?_⟩
    rw [heq] at hf
    rcases List.mem_map.mp hf with ⟨c, _, hc⟩
    rw [← hc]
    rfl
  · intro toks saveOk disc cancel k hk hcan hprev hdisc
    have heq : framesOf (generate_stream_trace (.ok toks) saveOk disc cancel)
        = ((pyFormat (joinTruthy toks)).data.take (k + 1)).map Frame.token := by
      rw [framesOf_ok]
      exact emitLoop_take_of_cancel disc cancel _ 0 k hk (by simpa using hcan)
        (fun j _ hj2 => hprev j (by omega))
        (fun j _ hj2 hm => hdisc j (by omega) hm)
    refine ⟨heq, fun f hf => ?_⟩
    rw [heq] at hf
    rcases List.mem_map.mp hf with ⟨c, _, hc⟩
    rw [← hc]
    rfl
  · intro out saveOk disc cancel f hf
    cases out with
    | timeout => simp [generate_stream_trace, framesOf] at hf
    | err m => simp [generate_stream_trace, framesOf] at hf
    | ok toks =>
      rw [framesOf_ok] at hf
      exact emitLoop_terminal_last disc cancel _ 0 f hf

/-- Closed instance of the C6 theorem: a disconnect observed at the very
first check delivers zero frames — no token, no error, no done — and a
task cancellation observed at the first character delivers exactly that
one token frame with nothing (in particular no done frame) after it. -/
theorem web_stream_no_frames_after_cancellation_witness :
    (framesOf (generate_stream_trace (.ok ["a"]) true (fun _ => true) (fun _ => false)) = []
      ∧ 0 < (pyFormat (joinTruthy ["a"])).data.length)
    ∧ (framesOf (generate_stream_trace (.ok ["a"]) true (fun _ => false) (fun i => i == 0))
        = ((pyFormat (joinTruthy ["a"])).data.take 1).map Frame.token
      ∧ ∀ f ∈ framesOf
            (generate_stream_trace (.ok ["a"]) true (fun _ => false) (fun i => i == 0)),
          isTerminal f = false) := by
  refine ⟨⟨?_, by decide⟩, ?_⟩
  · have h := web_stream_no_frames_after_cancellation.1 ["a"] true
      (fun _ => true) (fun _ => false) 0
      (by decide) (by decide) rfl (fun j hj => absurd hj (Nat.not_lt_zero j))
    simpa using h.1
  · exact web_stream_no_frames_after_cancellation.2.1 ["a"] true
      (fun _ => false) (fun i => i == 0) 0
      (by decide) rfl (fun j hj => absurd hj (Nat.not_lt_zero j)) (fun j _ _ => rfl)

/-- With no disconnect and no cancellation the emit loop delivers one
token frame per character, then exactly one done frame. -/
theorem emitLoop_complete (disc cancel : Nat → Bool)
    (hd : ∀ j, j % 100 = 0 → disc j = false) (hc : ∀ j, cancel j = false) :
    ∀ (chars : List Char) (i : Nat),
      emitLoop disc cancel chars i = chars.map Frame.token ++ [Frame.done] := by
  intro chars
  induction chars with
  | nil => intro i; rfl
  | cons c rest ih =>
    intro i
    rw [emitLoop,
      if_neg (by rintro ⟨hm, hbad⟩; rw [hd i hm] at hbad; exact Bool.noConfusion hbad),
      if_neg (by rw [hc i]; exact Bool.false_ne_true), ih]
    rfl

/-- C10: on a successfully completed request (RAG phase succeeded, the
store write succeeded, no disconnect, no cancellation), the whole answer
is accumulated, reformatted by PHASE 4 and written to the message store
before any frame is sent; the token frames then carry exactly the
characters of that persisted formatted text, in order, followed by exactly
one done frame. -/
theorem stream_persist_before_tokens (tokens : List String) (disc cancel : Nat → Bool)
    (hd : ∀ j, j % 100 = 0 → disc j = false) (hc : ∀ j, cancel j = false) :
    generate_stream_trace (.ok tokens) true disc cancel
      = Event.persist (pyFormat (joinTruthy tokens)) true
        :: ((pyFormat (joinTruthy tokens)).data.map fun c => Event.frame (Frame.token c))
        ++ [Event.frame Frame.done] := by
  rw [generate_stream_trace]
  rw [emitLoop_complete disc cancel hd hc]
  simp [List.map_append, List.map_map, Function.comp]

/-- Closed instance of the C10 theorem. -/
theorem stream_persist_before_tokens_witness :
    generate_stream_trace (.ok ["hi"]) true (fun _ => false) (fun _ => false)
      = Event.persist (pyFormat (joinTruthy ["hi"])) true
        :: ((pyFormat (joinTruthy ["hi"])).data.map fun c => Event.frame (Frame.token c))
        ++ [Event.frame Frame.done] :=
  stream_persist_before_tokens ["hi"] (fun _ => false) (fun _ => false)
    (fun _ _ => rfl) (fun _ => rfl)

/-! ### C9 — response normalization is not idempotent -/

/-- C9 counterexample: whitespace-only lines are emptied by the per-line
cleanup, which can create a fresh run of three newlines that only a second
pass collapses.  `unicodedata.normalize('NFC', ·)` is the identity on this
ASCII input, so it is instantiated with `id`. -/
theorem normalize_not_idempotent_counterexample :
    normalize_response id "a\n \n \nb" = "a\n\n\nb"
    ∧ normalize_response id (normalize_response id "a\n \n \nb") = "a\n\nb"
    ∧ normalize_response id (normalize_response id "a\n \n \nb")
        ≠ normalize_response id "a\n \n \nb" := by
  decide

theorem dropWhile_idem (p : Char → Bool) (l : List Char) :
    (l.dropWhile p).dropWhile p = l.dropWhile p := by
  induction l with
  | nil => rfl
  | cons c rest ih =>
    by_cases h : p c = true
    · rw [List.dropWhile_cons_of_pos h]; exact ih
    · rw [List.dropWhile_cons_of_neg h, List.dropWhile_cons_of_neg h]

theorem pyRStrip_idem (l : List Char) : pyRStrip (pyRStrip l) = pyRStrip l := by
  rw [pyRStrip, pyRStrip, List.reverse_reverse, dropWhile_idem]

theorem pyRStrip_prefix (l : List Char) : ∃ t, pyRStrip l ++ t = l := by
  refine ⟨(l.reverse.takeWhile pyIsSpace).reverse, ?_⟩
  rw [pyRStrip, ← List.reverse_append, List.takeWhile_append_dropWhile, List.reverse_reverse]

theorem mem_pyRStrip {c : Char} {l : List Char} (h : c ∈ pyRStrip l) : c ∈ l := by
  obtain ⟨t, ht⟩ := pyRStrip_prefix l
  rw [← ht]
  exact List.mem_append_left _ h

theorem pyRStrip_head {l : List Char} {a : Char} {as : List Char}
    (h : pyRStrip l = a :: as) : ∃ t, l = a :: t := by
  obtain ⟨t, ht⟩ := pyRStrip_prefix l
  rw [h] at ht
  exact ⟨as ++ t, by rw [← ht]; rfl⟩

theorem dropWhile_head_not (p : Char → Bool) :
    ∀ (l : List Char) {a : Char} {as : List Char}, l.dropWhile p = a :: as → p a = false := by
  intro l
  induction l with
  | nil => intro a as h; exact absurd h (by simp)
  | cons c rest ih =>
    intro a as h
    by_cases hc : p c = true
    · rw [List.dropWhile_cons_of_pos hc] at h; exact ih h
    · rw [List.dropWhile_cons_of_neg hc] at h
      injection h with h1 _
      subst h1
      exact Bool.eq_false_iff.mpr hc

theorem lastNotSpace_cons_cons (a b : Char) (r : List Char) :
    lastNotSpace (a :: b :: r) = lastNotSpace (b :: r) := rfl

theorem lastNotSpace_append_singleton (ys : List Char) (a : Char) :
    lastNotSpace (ys ++ [a]) = !pyIsSpace a := by
  induction ys with
  | nil => rfl
  | cons c ys ih =>
    cases ys with
    | nil => rfl
    | cons d ys2 =>
      rw [List.cons_append, List.cons_append, lastNotSpace_cons_cons]
      rw [List.cons_append] at ih
      exact ih

theorem lastNotSpace_pyRStrip (l : List Char) : lastNotSpace (pyRStrip l) = true := by
  cases hr : l.reverse.dropWhile pyIsSpace with
  | nil => rw [pyRStrip, hr]; rfl
  | cons a as =>
    have ha := dropWhile_head_not pyIsSpace l.reverse hr
    rw [pyRStrip, hr, List.reverse_cons, lastNotSpace_append_singleton, ha]
    rfl

theorem rstripFixed_of_lastNotSpace : ∀ {l : List Char}, lastNotSpace l = true → pyRStrip l = l := by
  intro l
  induction l using List.reverseRecOn with
  | nil => intro _; rfl
  | append_singleton ys a _ =>
    intro h
    rw [lastNotSpace_append_singleton] at h
    have ha : pyIsSpace a = false := by
      cases hsp : pyIsSpace a
      · rfl
      · rw [hsp] at h; exact absurd h (by decide)
    rw [pyRStrip, List.reverse_append]
    simp only [List.reverse_cons, List.reverse_nil, List.nil_append, List.singleton_append]
    rw [List.dropWhile_cons_of_neg (by rw [ha]; exact Bool.false_ne_true), List.reverse_cons,
      List.reverse_reverse]

theorem length_dropWhile_le (p : Char → Bool) (l : List Char) :
    (l.dropWhile p).length ≤ l.length := by
  conv_rhs => rw [← List.takeWhile_append_dropWhile p l]
  rw [List.length_append]
  omega

theorem lastNotSpace_of_rstripFixed : ∀ {l : List Char}, pyRStrip l = l → lastNotSpace l = true := by
  intro l
  induction l using List.reverseRecOn with
  | nil => intro _; rfl
  | append_singleton ys a _ =>
    intro h
    rw [lastNotSpace_append_singleton]
    cases hsp : pyIsSpace a
    · rfl
    · exfalso
      have heq : pyRStrip (ys ++ [a]) = (ys.reverse.dropWhile pyIsSpace).reverse := by
        rw [pyRStrip, List.reverse_append]
        simp only [List.reverse_cons, List.reverse_nil, List.nil_append, List.singleton_append]
        rw [List.dropWhile_cons_of_pos hsp]
      rw [heq] at h
      have hlen : ((ys.reverse.dropWhile pyIsSpace).reverse).length = (ys ++ [a]).length := by
        rw [h]
      rw [List.length_reverse, List.length_append] at hlen
      have := length_dropWhile_le pyIsSpace ys.reverse
      rw [List.length_reverse] at this
      simp at hlen
      omega

theorem noDblSpace_cons_cons (a b : Char) (r : List Char) :
    noDblSpace (a :: b :: r) = (!(a == ' ' && b == ' ') && noDblSpace (b :: r)) := rfl

theorem noDblSpace_tail {a : Char} {l : List Char} (h : noDblSpace (a :: l) = true) :
    noDblSpace l = true := by
  cases l with
  | nil => rfl
  | cons b r =>
    rw [noDblSpace_cons_cons, Bool.and_eq_true] at h
    exact h.2

theorem noDblSpace_cons_of_ne {a : Char} {l : List Char} (ha : a ≠ ' ')
    (h : noDblSpace l = true) : noDblSpace (a :: l) = true := by
  cases l with
  | nil => rfl
  | cons b r => rw [noDblSpace_cons_cons, h]; simp [ha]

theorem spGo_cons_space_true (rest : List Char) : spGo (' ' :: rest) true = spGo rest true := rfl

theorem spGo_cons_space_false (rest : List Char) :
    spGo (' ' :: rest) false = ' ' :: spGo rest true := rfl

theorem spGo_cons_of_ne {c : Char} (rest : List Char) (b : Bool) (hc : c ≠ ' ') :
    spGo (c :: rest) b = c :: spGo rest false := by
  simp only [spGo, if_neg hc]

theorem spGo_noDS (l : List Char) :
    noDblSpace (spGo l true) = true ∧ noDblSpace (' ' :: spGo l true) = true
    ∧ noDblSpace (spGo l false) = true := by
  induction l with
  | nil => exact ⟨rfl, rfl, rfl⟩
  | cons c rest ih =>
    obtain ⟨ih1, ih2, ih3⟩ := ih
    by_cases hc : c = ' '
    · subst hc
      exact ⟨by rw [spGo_cons_space_true]; exact ih1,
        by rw [spGo_cons_space_true]; exact ih2,
        by rw [spGo_cons_space_false]; exact ih2⟩
    · refine ⟨?_, ?_, ?_⟩
      · rw [spGo_cons_of_ne rest true hc]; exact noDblSpace_cons_of_ne hc ih3
      · rw [spGo_cons_of_ne rest true hc, noDblSpace_cons_cons,
          noDblSpace_cons_of_ne hc ih3]
        simp [hc]
      · rw [spGo_cons_of_ne rest false hc]; exact noDblSpace_cons_of_ne hc ih3

theorem spGo_fix (l : List Char) (h : noDblSpace l = true) :
    spGo l false = l ∧ (l.head? ≠ some ' ' → spGo l true = l) := by
  induction l with
  | nil => exact ⟨rfl, fun _ => rfl⟩
  | cons c rest ih =>
    have hrest := noDblSpace_tail h
    obtain ⟨ihf, iht⟩ := ih hrest
    by_cases hc : c = ' '
    · subst hc
      have hhead : rest.head? ≠ some ' ' := by
        cases rest with
        | nil => simp
        | cons d r =>
          rw [noDblSpace_cons_cons, Bool.and_eq_true] at h
          have h1 := h.1
          simp only [List.head?_cons, ne_eq, Option.some.injEq]
          intro hd
          subst hd
          simp at h1
      refine ⟨?_, ?_⟩
      · rw [spGo_cons_space_false, iht hhead]
      · intro hh; exact absurd rfl hh
    · exact ⟨by rw [spGo_cons_of_ne rest false hc, ihf],
        fun _ => by rw [spGo_cons_of_ne rest true hc, ihf]⟩

theorem collapseSpaces_eq_self {l : List Char} (h : noDblSpace l = true) :
    collapseSpaces l = l := (spGo_fix l h).1

theorem noDblSpace_collapseSpaces (l : List Char) :
    noDblSpace (collapseSpaces l) = true := (spGo_noDS l).2.2

theorem spGo_false_ne_nil (c : Char) (rest : List Char) : spGo (c :: rest) false ≠ [] := by
  by_cases hc : c = ' '
  · subst hc; rw [spGo_cons_space_false]; simp
  · rw [spGo_cons_of_ne rest false hc]; simp

theorem spGo_true_ne_nil : ∀ (l : List Char), lastNotSpace l = true → l ≠ [] →
    spGo l true ≠ [] := by
  intro l
  induction l with
  | nil => intro _ h; exact absurd rfl h
  | cons c rest ih =>
    intro h _
    by_cases hc : c = ' '
    · subst hc
      cases rest with
      | nil => exact absurd h (by decide)
      | cons d r =>
        rw [spGo_cons_space_true]
        exact ih (by rwa [lastNotSpace_cons_cons] at h) (by simp)
    · rw [spGo_cons_of_ne rest true hc]; simp

theorem spGo_lastNotSpace : ∀ (l : List Char), lastNotSpace l = true →
    ∀ b, lastNotSpace (spGo l b) = true := by
  intro l
  induction l with
  | nil => intro _ b; rfl
  | cons c rest ih =>
    intro h b
    cases rest with
    | nil =>
      have hc : c ≠ ' ' := by
        intro hcc
        subst hcc
        exact absurd h (by decide)
      rw [spGo_cons_of_ne [] b hc]
      exact h
    | cons d r =>
      have hdr : lastNotSpace (d :: r) = true := by rwa [lastNotSpace_cons_cons] at h
      by_cases hc : c = ' '
      · subst hc
        cases b with
        | true => rw [spGo_cons_space_true]; exact ih hdr true
        | false =>
          rw [spGo_cons_space_false]
          cases hX : spGo (d :: r) true with
          | nil => exact absurd hX (spGo_true_ne_nil (d :: r) hdr (by simp))
          | cons x xs =>
            have hx := ih hdr true
            rw [hX] at hx
            rw [lastNotSpace_cons_cons]
            exact hx
      · rw [spGo_cons_of_ne (d :: r) b hc]
        cases hY : spGo (d :: r) false with
        | nil => exact absurd hY (spGo_false_ne_nil d r)
        | cons y ys =>
          have hy := ih hdr false
          rw [hY] at hy
          rw [lastNotSpace_cons_cons]
          exact hy

theorem cleanLine_eq_self_iff (l : List Char) :
    cleanLine l = l ↔ (noDblSpace l = true ∧ lastNotSpace l = true) := by
  constructor
  · intro h
    constructor
    · rw [← h, cleanLine]; exact noDblSpace_collapseSpaces _
    · rw [← h, cleanLine]
      exact spGo_lastNotSpace _ (lastNotSpace_pyRStrip l) false
  · rintro ⟨h1, h2⟩
    rw [cleanLine, rstripFixed_of_lastNotSpace h2]
    exact collapseSpaces_eq_self h1

theorem cleanLine_idem (l : List Char) : cleanLine (cleanLine l) = cleanLine l :=
  (cleanLine_eq_self_iff _).mpr
    ⟨noDblSpace_collapseSpaces _, spGo_lastNotSpace _ (lastNotSpace_pyRStrip l) false⟩

theorem cleanLine_tail {c : Char} {l : List Char} (h : cleanLine (c :: l) = c :: l) :
    cleanLine l = l := by
  obtain ⟨h1, h2⟩ := (cleanLine_eq_self_iff _).mp h
  refine (cleanLine_eq_self_iff _).mpr ⟨noDblSpace_tail h1, ?_⟩
  cases l with
  | nil => rfl
  | cons d r => rwa [lastNotSpace_cons_cons] at h2

theorem splitNL_ne_nil (x : List Char) : splitNL x ≠ [] := by
  cases x with
  | nil => simp [splitNL]
  | cons c rest =>
    by_cases hc : c = '\n'
    · simp [splitNL, hc]
    · simp only [splitNL, if_neg hc]
      cases splitNL rest <;> simp

theorem splitNL_no_nl : ∀ (x : List Char), ∀ l ∈ splitNL x, '\n' ∉ l := by
  intro x
  induction x with
  | nil =>
    intro l hl
    simp [splitNL] at hl
    subst hl
    simp
  | cons c rest ih =>
    intro l hl
    by_cases hc : c = '\n'
    · rw [show splitNL (c :: rest) = [] :: splitNL rest by simp [splitNL, hc]] at hl
      rcases List.mem_cons.mp hl with h | h
      · subst h; simp
      · exact ih l h
    · cases hr : splitNL rest with
      | nil => exact absurd hr (splitNL_ne_nil rest)
      | cons l0 ls =>
        rw [show splitNL (c :: rest) = (c :: l0) :: ls by
          simp only [splitNL, if_neg hc, hr]] at hl
        rcases List.mem_cons.mp hl with h | h
        · subst h
          intro hmem
          rcases List.mem_cons.mp hmem with h2 | h2
          · exact hc h2.symm
          · exact ih l0 (by rw [hr]; exact List.mem_cons_self _ _) h2
        · exact ih l (by rw [hr]; exact List.mem_cons_of_mem _ h)

theorem joinNL_singleton (l : List Char) : joinNL [l] = l := rfl

theorem joinNL_cons_ne_nil {l : List Char} {ls : List (List Char)} (h : ls ≠ []) :
    joinNL (l :: ls) = l ++ '\n' :: joinNL ls := by
  cases ls with
  | nil => exact absurd rfl h
  | cons a as => rfl

theorem joinNL_splitNL : ∀ (x : List Char), joinNL (splitNL x) = x := by
  intro x
  induction x with
  | nil => rfl
  | cons c rest ih =>
    by_cases hc : c = '\n'
    · subst hc
      rw [show splitNL ('\n' :: rest) = [] :: splitNL rest by simp [splitNL],
        joinNL_cons_ne_nil (splitNL_ne_nil rest), List.nil_append, ih]
    · cases hr : splitNL rest with
      | nil => exact absurd hr (splitNL_ne_nil rest)
      | cons l0 ls =>
        rw [show splitNL (c :: rest) = (c :: l0) :: ls by simp only [splitNL, if_neg hc, hr]]
        rw [hr] at ih
        cases ls with
        | nil =>
          rw [joinNL_singleton]
          rw [joinNL_singleton] at ih
          rw [ih]
        | cons m ms =>
          rw [joinNL_cons_ne_nil (by simp)]
          rw [joinNL_cons_ne_nil (by simp)] at ih
          rw [List.cons_append, ih]

theorem splitNL_single : ∀ {l : List Char}, '\n' ∉ l → splitNL l = [l] := by
  intro l
  induction l with
  | nil => intro _; rfl
  | cons c rest ih =>
    intro h
    have hc : c ≠ '\n' := fun hcc => h (hcc ▸ List.mem_cons_self c rest)
    have hr : splitNL rest = [rest] := ih (fun hm => h (List.mem_cons_of_mem c hm))
    simp only [splitNL, if_neg hc, hr]

theorem splitNL_append_nl : ∀ {l : List Char} (z : List Char), '\n' ∉ l →
    splitNL (l ++ '\n' :: z) = l :: splitNL z := by
  intro l
  induction l with
  | nil => intro z _; simp [splitNL]
  | cons c rest ih =>
    intro z h
    have hc : c ≠ '\n' := fun hcc => h (hcc ▸ List.mem_cons_self c rest)
    have hr := ih z (fun hm => h (List.mem_cons_of_mem c hm))
    rw [List.cons_append]
    simp only [splitNL, if_neg hc, hr]

theorem splitNL_joinNL : ∀ (M : List (List Char)), (∀ l ∈ M, '\n' ∉ l) → M ≠ [] →
    splitNL (joinNL M) = M := by
  intro M
  induction M with
  | nil => intro _ h; exact absurd rfl h
  | cons l M2 ih =>
    intro hnl _
    cases M2 with
    | nil => rw [joinNL_singleton]; exact splitNL_single (hnl l (List.mem_cons_self _ _))
    | cons m ms =>
      rw [joinNL_cons_ne_nil (by simp),
        splitNL_append_nl _ (hnl l (List.mem_cons_self _ _)),
        ih (fun l2 hl2 => hnl l2 (List.mem_cons_of_mem _ hl2)) (by simp)]

theorem mem_spGo : ∀ (l : List Char) (b : Bool) {c : Char}, c ∈ spGo l b → c ∈ l := by
  intro l
  induction l with
  | nil => intro b c h; exact absurd h (by simp [spGo])
  | cons d rest ih =>
    intro b c h
    by_cases hd : d = ' '
    · subst hd
      cases b with
      | true =>
        rw [spGo_cons_space_true] at h
        exact List.mem_cons_of_mem _ (ih true h)
      | false =>
        rw [spGo_cons_space_false] at h
        rcases List.mem_cons.mp h with h | h
        · subst h; exact List.mem_cons_self _ _
        · exact List.mem_cons_of_mem _ (ih true h)
    · rw [spGo_cons_of_ne rest b hd] at h
      rcases List.mem_cons.mp h with h | h
      · subst h; exact List.mem_cons_self _ _
      · exact List.mem_cons_of_mem _ (ih false h)

theorem mem_cleanLine {c : Char} {l : List Char} (h : c ∈ cleanLine l) : c ∈ l :=
  mem_pyRStrip (mem_spGo _ false h)

theorem mem_splitNL : ∀ (x : List Char) {l : List Char} {c : Char},
    l ∈ splitNL x → c ∈ l → c ∈ x := by
  intro x
  induction x with
  | nil =>
    intro l c hl hc
    simp [splitNL] at hl
    subst hl
    simp at hc
  | cons d rest ih =>
    intro l c hl hc
    by_cases hd : d = '\n'
    · rw [show splitNL (d :: rest) = [] :: splitNL rest by simp [splitNL, hd]] at hl
      rcases List.mem_cons.mp hl with h | h
      · subst h; simp at hc
      · exact List.mem_cons_of_mem _ (ih h hc)
    · cases hr : splitNL rest with
      | nil => exact absurd hr (splitNL_ne_nil rest)
      | cons l0 ls =>
        rw [show splitNL (d :: rest) = (d :: l0) :: ls by
          simp only [splitNL, if_neg hd, hr]] at hl
        rcases List.mem_cons.mp hl with h | h
        · subst h
          rcases List.mem_cons.mp hc with h2 | h2
          · subst h2; exact List.mem_cons_self _ _
          · exact List.mem_cons_of_mem _ (ih (by rw [hr]; exact List.mem_cons_self _ _) h2)
        · exact List.mem_cons_of_mem _ (ih (by rw [hr]; exact List.mem_cons_of_mem _ h) hc)

theorem mem_joinNL : ∀ (M : List (List Char)) {c : Char}, c ∈ joinNL M →
    (∃ l ∈ M, c ∈ l) ∨ c = '\n' := by
  intro M
  induction M with
  | nil => intro c h; simp [joinNL] at h
  | cons l M2 ih =>
    intro c h
    cases M2 with
    | nil => rw [joinNL_singleton] at h; exact Or.inl ⟨l, List.mem_cons_self _ _, h⟩
    | cons m ms =>
      rw [joinNL_cons_ne_nil (by simp)] at h
      rcases List.mem_append.mp h with h | h
      · exact Or.inl ⟨l, List.mem_cons_self _ _, h⟩
      · rcases List.mem_cons.mp h with h | h
        · exact Or.inr h
        · rcases ih h with ⟨l2, hl2, hc2⟩ | h2
          · exact Or.inl ⟨l2, List.mem_cons_of_mem _ hl2, hc2⟩
          · exact Or.inr h2

theorem mem_pyLStrip {c : Char} {l : List Char} (h : c ∈ pyLStrip l) : c ∈ l := by
  rw [pyLStrip] at h
  rw [← List.takeWhile_append_dropWhile pyIsSpace l]
  exact List.mem_append_right _ h

theorem mem_pyStrip {c : Char} {l : List Char} (h : c ∈ pyStrip l) : c ∈ l :=
  mem_pyLStrip (mem_pyRStrip h)

theorem replaceCR_no_cr (l : List Char) : '\r' ∉ replaceCR l := by
  intro h
  rw [replaceCR] at h
  rcases List.mem_map.mp h with ⟨a, _, ha⟩
  by_cases haa : a = '\r'
  · rw [if_pos haa] at ha; exact absurd ha (by decide)
  · rw [if_neg haa] at ha; exact haa ha

theorem mem_emitNl {c : Char} {k : Nat} (h : c ∈ emitNl k) : c = '\n' := by
  rw [emitNl] at h
  split at h
  · simp at h; exact h
  · exact List.eq_of_mem_replicate h

theorem mem_nlGo : ∀ (l : List Char) (k : Nat) {c : Char}, c ∈ nlGo l k → c ∈ l ∨ c = '\n' := by
  intro l
  induction l with
  | nil => intro k c h; exact Or.inr (mem_emitNl h)
  | cons d rest ih =>
    intro k c h
    by_cases hd : d = '\n'
    · subst hd
      rw [show nlGo ('\n' :: rest) k = nlGo rest (k + 1) by simp [nlGo]] at h
      rcases ih (k + 1) h with h | h
      · exact Or.inl (List.mem_cons_of_mem _ h)
      · exact Or.inr h
    · rw [show nlGo (d :: rest) k = emitNl k ++ d :: nlGo rest 0 by simp [nlGo, hd]] at h
      rcases List.mem_append.mp h with h | h
      · exact Or.inr (mem_emitNl h)
      · rcases List.mem_cons.mp h with h | h
        · subst h; exact Or.inl (List.mem_cons_self _ _)
        · rcases ih 0 h with h | h
          · exact Or.inl (List.mem_cons_of_mem _ h)
          · exact Or.inr h

theorem noCR_normalizeChars (u : List Char) : '\r' ∉ normalizeChars u := by
  intro h
  rw [normalizeChars] at h
  have h1 := mem_pyStrip h
  rcases mem_joinNL _ h1 with ⟨l, hl, hc⟩ | h2
  · rcases List.mem_map.mp hl with ⟨l0, hl0, rfl⟩
    have h3 : '\r' ∈ l0 := mem_cleanLine hc
    have h4 := mem_splitNL _ hl0 h3
    rcases mem_nlGo _ 0 h4 with h5 | h5
    · exact replaceCR_no_cr _ h5
    · exact absurd h5 (by decide)
  · exact absurd h2 (by decide)

theorem replaceCR_eq_self {l : List Char} (h : '\r' ∉ l) : replaceCR l = l := by
  rw [replaceCR]
  have hcg : ∀ a ∈ l, (if a = '\r' then '\n' else a) = id a := by
    intro a ha
    have hc : a ≠ '\r' := fun hcc => h (hcc ▸ ha)
    rw [if_neg hc]
    rfl
  rw [List.map_congr_left hcg, List.map_id]

theorem replaceCRLF_eq_self : ∀ {l : List Char}, '\r' ∉ l → replaceCRLF l = l := by
  intro l
  induction l with
  | nil => intro _; rfl
  | cons c rest ih =>
    intro h
    cases rest with
    | nil => rfl
    | cons d rest2 =>
      have hc : c ≠ '\r' := fun hcc => h (hcc ▸ List.mem_cons_self _ _)
      have hr : '\r' ∉ d :: rest2 := fun hm => h (List.mem_cons_of_mem _ hm)
      simp only [replaceCRLF, if_neg hc]
      rw [ih hr]

theorem lstrip_fixed_head : ∀ {a : Char} {x : List Char},
    pyLStrip (a :: x) = a :: x → pyIsSpace a = false := by
  intro a x h
  cases hsp : pyIsSpace a
  · rfl
  · exfalso
    rw [pyLStrip, List.dropWhile_cons_of_pos hsp] at h
    have hle := length_dropWhile_le pyIsSpace x
    have hlen : (x.dropWhile pyIsSpace).length = x.length + 1 := by rw [h]; simp
    omega

theorem pyStrip_idem (l : List Char) : pyStrip (pyStrip l) = pyStrip l := by
  rw [pyStrip, pyStrip]
  have hfix : pyLStrip (pyLStrip l) = pyLStrip l := dropWhile_idem pyIsSpace l
  have hl : pyLStrip (pyRStrip (pyLStrip l)) = pyRStrip (pyLStrip l) := by
    cases hr : pyRStrip (pyLStrip l) with
    | nil => rfl
    | cons a as =>
      obtain ⟨t, ht⟩ := pyRStrip_head hr
      rw [ht] at hfix
      have ha := lstrip_fixed_head hfix
      rw [pyLStrip, List.dropWhile_cons_of_neg (by rw [ha]; exact Bool.false_ne_true)]
  rw [hl, pyRStrip_idem]

theorem linesClean_nil : LinesClean [] := by
  intro l hl
  simp [splitNL] at hl
  subst hl
  rfl

theorem linesClean_tail_chars : ∀ {c : Char} {rest : List Char},
    LinesClean (c :: rest) → LinesClean rest := by
  intro c rest h
  by_cases hc : c = '\n'
  · intro l hl
    exact h l (by
      rw [show splitNL (c :: rest) = [] :: splitNL rest by simp [splitNL, hc]]
      exact List.mem_cons_of_mem _ hl)
  · cases hr : splitNL rest with
    | nil => exact absurd hr (splitNL_ne_nil rest)
    | cons l0 ls =>
      have heq : splitNL (c :: rest) = (c :: l0) :: ls := by
        simp only [splitNL, if_neg hc, hr]
      intro l hl
      rw [hr] at hl
      rcases List.mem_cons.mp hl with h1 | h1
      · have hx := h (c :: l0) (by rw [heq]; exact List.mem_cons_self _ _)
        rw [h1]
        exact cleanLine_tail hx
      · exact h l (by rw [heq]; exact List.mem_cons_of_mem _ h1)

theorem linesClean_lstrip : ∀ {x : List Char}, LinesClean x → LinesClean (pyLStrip x) := by
  intro x
  induction x with
  | nil => intro h; exact h
  | cons c rest ih =>
    intro h
    by_cases hsp : pyIsSpace c = true
    · rw [pyLStrip, List.dropWhile_cons_of_pos hsp]
      exact ih (linesClean_tail_chars h)
    · rw [pyLStrip, List.dropWhile_cons_of_neg hsp]
      exact h

theorem splitNL_head_nil {y : List Char} {t0 : List (List Char)} (h : splitNL y = [] :: t0) :
    y = [] ∨ ∃ y2, y = '\n' :: y2 := by
  cases y with
  | nil => exact Or.inl rfl
  | cons d y2 =>
    by_cases hd : d = '\n'
    · exact Or.inr ⟨y2, by rw [hd]⟩
    · exfalso
      cases hr : splitNL y2 with
      | nil => exact absurd hr (splitNL_ne_nil y2)
      | cons l0 ls =>
        rw [show splitNL (d :: y2) = (d :: l0) :: ls by
          simp only [splitNL, if_neg hd, hr]] at h
        injection h with h1 _
        simp at h1

theorem splitNL_head_cons {y : List Char} {d : Char} {l : List Char} {ls : List (List Char)}
    (h : splitNL y = (d :: l) :: ls) : ∃ y2, y = d :: y2 := by
  cases y with
  | nil =>
    exfalso
    simp [splitNL] at h
  | cons e y2 =>
    by_cases he : e = '\n'
    · exfalso
      rw [show splitNL (e :: y2) = [] :: splitNL y2 by simp [splitNL, he]] at h
      injection h with h1 _
      simp at h1
    · cases hr : splitNL y2 with
      | nil => exact absurd hr (splitNL_ne_nil y2)
      | cons l0 ls0 =>
        rw [show splitNL (e :: y2) = (e :: l0) :: ls0 by
          simp only [splitNL, if_neg he, hr]] at h
        injection h with h1 _
        injection h1 with h2 _
        exact ⟨y2, by rw [h2]⟩

theorem list_isEmpty_eq_nil {l : List Char} (h : l.isEmpty = true) : l = [] := by
  cases l with
  | nil => rfl
  | cons a as => simp at h

theorem pyRStrip_cons (c : Char) (rest : List Char) :
    pyRStrip (c :: rest)
      = if pyIsSpace c = true ∧ pyRStrip rest = [] then [] else c :: pyRStrip rest := by
  rw [pyRStrip, List.reverse_cons, List.dropWhile_append]
  by_cases hemp : (rest.reverse.dropWhile pyIsSpace).isEmpty = true
  · rw [if_pos hemp]
    have hnil : pyRStrip rest = [] := by
      rw [pyRStrip, list_isEmpty_eq_nil hemp]
      rfl
    by_cases hsp : pyIsSpace c = true
    · rw [if_pos ⟨hsp, hnil⟩, List.dropWhile_cons_of_pos hsp]
      rfl
    · rw [if_neg (fun hand => hsp hand.1), List.dropWhile_cons_of_neg hsp, hnil]
      rfl
  · rw [if_neg hemp]
    have hne : pyRStrip rest ≠ [] := by
      rw [pyRStrip]
      intro hcon
      have hdw : rest.reverse.dropWhile pyIsSpace = [] := by
        have h2 := congrArg List.reverse hcon
        rw [List.reverse_reverse] at h2
        exact h2
      rw [hdw] at hemp
      exact hemp rfl
    rw [if_neg (fun hand => hne hand.2), List.reverse_append, pyRStrip]
    rfl

theorem linesClean_rstrip : ∀ {x : List Char}, LinesClean x → LinesClean (pyRStrip x) := by
  intro x
  induction x with
  | nil => intro h; exact h
  | cons c rest ih =>
    intro h
    have hy := ih (linesClean_tail_chars h)
    rw [pyRStrip_cons]
    by_cases hcond : pyIsSpace c = true ∧ pyRStrip rest = []
    · rw [if_pos hcond]; exact linesClean_nil
    · rw [if_neg hcond]
      by_cases hc : c = '\n'
      · intro l hl
        rw [show splitNL (c :: pyRStrip rest) = [] :: splitNL (pyRStrip rest) by
          simp [splitNL, hc]] at hl
        rcases List.mem_cons.mp hl with h1 | h1
        · subst h1; rfl
        · exact hy l h1
      · cases hr : splitNL (pyRStrip rest) with
        | nil => exact absurd hr (splitNL_ne_nil _)
        | cons h0 t0 =>
          have heq : splitNL (c :: pyRStrip rest) = (c :: h0) :: t0 := by
            simp only [splitNL, if_neg hc, hr]
          intro l hl
          rw [heq] at hl
          rcases List.mem_cons.mp hl with h1 | h1
          on_goal 2 => exact hy l (by rw [hr]; exact List.mem_cons_of_mem _ h1)
          subst h1
          cases h0 with
          | nil =>
            rcases splitNL_head_nil hr with hynil | ⟨y2, hy2⟩
            · have hcw : pyIsSpace c = false := by
                cases hspc : pyIsSpace c
                · rfl
                · exact absurd ⟨hspc, hynil⟩ hcond
              refine (cleanLine_eq_self_iff _).mpr ⟨rfl, ?_⟩
              simp [lastNotSpace, hcw]
            · obtain ⟨t, ht⟩ := pyRStrip_prefix rest
              rw [hy2] at ht
              have hrest : rest = '\n' :: (y2 ++ t) := by rw [← ht]; rfl
              have hsplit : splitNL (c :: rest) = [c] :: splitNL (y2 ++ t) := by
                rw [hrest]
                simp [splitNL, hc]
              exact h [c] (by rw [hsplit]; exact List.mem_cons_self _ _)
          | cons d h0q =>
            obtain ⟨y2, hy2⟩ := splitNL_head_cons hr
            obtain ⟨t, ht⟩ := pyRStrip_prefix rest
            rw [hy2] at ht
            have hrest : rest = d :: (y2 ++ t) := by rw [← ht]; rfl
            have hd : d ≠ '\n' := by
              intro hdn
              rw [hy2, hdn] at hr
              rw [show splitNL ('\n' :: y2) = [] :: splitNL y2 by simp [splitNL]] at hr
              injection hr with h1 _
              simp at h1
            cases hg : splitNL (y2 ++ t) with
            | nil => exact absurd hg (splitNL_ne_nil _)
            | cons g gs =>
              have hsplitrest : splitNL rest = (d :: g) :: gs := by
                rw [hrest]
                simp only [splitNL, if_neg hd, hg]
              have hsplitcrest : splitNL (c :: rest) = (c :: d :: g) :: gs := by
                simp only [splitNL, if_neg hc, hsplitrest]
              have horig : cleanLine (c :: d :: g) = c :: d :: g :=
                h _ (by rw [hsplitcrest]; exact List.mem_cons_self _ _)
              obtain ⟨hnds, _⟩ := (cleanLine_eq_self_iff _).mp horig
              have hpair : (c == ' ' && d == ' ') = false := by
                rw [noDblSpace_cons_cons, Bool.and_eq_true] at hnds
                have hp := hnds.1
                cases hcd : (c == ' ' && d == ' ')
                · rfl
                · rw [hcd] at hp
                  exact absurd hp (by decide)
              have hline : cleanLine (d :: h0q) = d :: h0q :=
                hy _ (by rw [hr]; exact List.mem_cons_self _ _)
              obtain ⟨hnd0, hln0⟩ := (cleanLine_eq_self_iff _).mp hline
              refine (cleanLine_eq_self_iff _).mpr ⟨?_, ?_⟩
              · rw [noDblSpace_cons_cons, hpair, hnd0]
                rfl
              · rw [lastNotSpace_cons_cons]
                exact hln0

theorem linesClean_firstPass (y : List Char) :
    LinesClean (joinNL ((splitNL y).map cleanLine)) := by
  have hnl : ∀ l2 ∈ (splitNL y).map cleanLine, '\n' ∉ l2 := by
    intro l2 hl2
    rcases List.mem_map.mp hl2 with ⟨l0, hl0, rfl⟩
    intro hm
    exact splitNL_no_nl y l0 hl0 (mem_cleanLine hm)
  have hne : (splitNL y).map cleanLine ≠ [] := by
    intro hcon
    rcases List.map_eq_nil_iff.mp hcon with h
    exact splitNL_ne_nil y h
  intro l hl
  rw [splitNL_joinNL _ hnl hne] at hl
  rcases List.mem_map.mp hl with ⟨l0, _, rfl⟩
  exact cleanLine_idem l0

theorem linesClean_normalizeChars (u : List Char) : LinesClean (normalizeChars u) :=
  linesClean_rstrip (linesClean_lstrip (linesClean_firstPass _))

theorem normalizeChars_strip_fixed (u : List Char) :
    pyStrip (normalizeChars u) = normalizeChars u := by
  rw [normalizeChars]
  exact pyStrip_idem _

theorem normalizeChars_eq_self {t : List Char} (hLC : LinesClean t) (hCR : '\r' ∉ t)
    (hNL : collapseNewlines t = t) (hST : pyStrip t = t) : normalizeChars t = t := by
  rw [normalizeChars, replaceCRLF_eq_self hCR, replaceCR_eq_self hCR, hNL]
  have hmap : (splitNL t).map cleanLine = splitNL t := by
    calc (splitNL t).map cleanLine = (splitNL t).map id := List.map_congr_left hLC
    _ = splitNL t := List.map_id _
  rw [hmap, joinNL_splitNL, hST]

/-- C9 amended: the claim of idempotence fails in general (see the
counterexample), but it holds on every input whose normalized form
contains no run of three or more newlines (stated as: the
newline-collapsing step is a no-op on the normalized output), assuming the
external NFC step is stable on the normalized output.  This is exactly the
restriction forced by the counterexample: a second pass differs only by
re-collapsing newline runs created when per-line cleanup empties
whitespace-only lines. -/
theorem normalize_idem_of_no_triple_newline (nfc : String → String) (s : String)
    (h1 : nfc (normalize_response nfc s) = normalize_response nfc s)
    (h2 : collapseNewlines (normalize_response nfc s).data = (normalize_response nfc s).data) :
    normalize_response nfc (normalize_response nfc s) = normalize_response nfc s := by
  conv_lhs => rw [normalize_response]
  rw [h1]
  have ht : normalizeChars (normalize_response nfc s).data = (normalize_response nfc s).data :=
    normalizeChars_eq_self (linesClean_normalizeChars (nfc s).data)
      (noCR_normalizeChars (nfc s).data) h2 (normalizeChars_strip_fixed (nfc s).data)
  rw [ht]

/-- Closed instance of the amended C9 statement. -/
theorem normalize_idem_witness :
    normalize_response id (normalize_response id "a\n \nb") = normalize_response id "a\n \nb" :=
  normalize_idem_of_no_triple_newline id "a\n \nb" rfl (by decide)
